import Mathlib

set_option maxHeartbeats 1000000

/-!
Verification of the storage and concurrency core of the BusTub-style
educational database engine.  Every definition is a shallow embedding of the
corresponding C++ source function; theorems settle the specification claims
against these definitions.
-/

namespace BusTub

/-! ## Lock manager (src/concurrency/lock_manager.cpp) -/

namespace LockMgr

/-- Lock modes of the multi-granularity lock manager
(enum `LockManager::LockMode`). -/
inductive LockMode
  | IS
  | IX
  | S
  | SIX
  | X
deriving DecidableEq, Repr

/-- Transaction states (enum `TransactionState`). -/
inductive TxnState
  | GROWING
  | SHRINKING
  | COMMITTED
  | ABORTED
deriving DecidableEq, Repr

/-- Isolation levels (enum `IsolationLevel`). -/
inductive IsoLevel
  | READ_UNCOMMITTED
  | READ_COMMITTED
  | REPEATABLE_READ
deriving DecidableEq, Repr

/-- Abort reasons of the lock manager (enum `AbortReason`). -/
inductive AbortReason
  | LOCK_ON_SHRINKING
  | LOCK_SHARED_ON_READ_UNCOMMITTED
  | UPGRADE_CONFLICT
  | INCOMPATIBLE_UPGRADE
  | ATTEMPTED_INTENTION_LOCK_ON_ROW
  | TABLE_LOCK_NOT_PRESENT
  | ATTEMPTED_UNLOCK_BUT_NO_LOCK_HELD
  | TABLE_UNLOCKED_BEFORE_UNLOCKING_ROWS
  | DEADLOCK
deriving DecidableEq, Repr

/-- One entry of a lock-request queue (`LockManager::LockRequest`).
`reqId` models the identity of the underlying heap object: the C++ code
compares requests by pointer (`request.get() == lock_request.get()`). -/
structure LockRequest where
  reqId : Nat
  txnId : Nat
  mode : LockMode
  granted : Bool
deriving DecidableEq, Repr

/-- Condition under which `LockManager::GrantLock` rejects request mode
`req` against an earlier *granted* request of mode `held`: a literal
transcription of the `switch (lock_request->lock_mode_)` in
`GrantLock` (lock_manager.cpp lines 78-104). -/
def blocks (req held : LockMode) : Bool :=
  match req with
  | .S => held == .IX || held == .SIX || held == .X
  | .X => true
  | .IS => held == .X
  | .IX => held == .S || held == .SIX || held == .X
  | .SIX => held != .IS

/-- `LockManager::GrantLock` (lock_manager.cpp lines 69-107): walk the FIFO
queue; stop (granting) upon reaching `r` itself; return false if any
request before `r` is ungranted, or is granted with a mode against which
`r`'s mode is incompatible. -/
def grantLock (r : LockRequest) : List LockRequest → Bool
  | [] => true
  | req :: rest =>
    if req.reqId == r.reqId then true
    else if !req.granted then false
    else if blocks r.mode req.mode then false
    else grantLock r rest

/-- Modelled from the spec claim wording (not from the code): a waiting
request is granted iff its mode is compatible with every currently granted
request in the queue and with every waiter that precedes it in FIFO
order. -/
def specGrantClaim (r : LockRequest) (q : List LockRequest) : Bool :=
  q.all (fun req => !req.granted || !blocks r.mode req.mode) &&
  (q.takeWhile (fun req => !(req.reqId == r.reqId))).all
    (fun req => req.granted || !blocks r.mode req.mode)

/-- Whether the SHRINKING transition fires on unlock: the big disjunction in
`UnlockTable` (lines 238-241) and `UnlockRow` (lines 385-390). -/
def unlockDemotes (iso : IsoLevel) (mode : LockMode) : Bool :=
  (iso == .REPEATABLE_READ && (mode == .S || mode == .X)) ||
  (iso == .READ_COMMITTED && mode == .X) ||
  (iso == .READ_UNCOMMITTED && mode == .X)

/-- Transaction bookkeeping visible to `UnlockTable` / `UnlockRow`. -/
structure Txn where
  txnId : Nat
  iso : IsoLevel
  state : TxnState
  /-- oid-indexed shared row-lock sets (`GetSharedRowLockSet`). -/
  sharedRowLocks : List (Nat × List Nat)
  /-- oid-indexed exclusive row-lock sets (`GetExclusiveRowLockSet`). -/
  exclusiveRowLocks : List (Nat × List Nat)
deriving DecidableEq, Repr

/-- Whether the transaction still holds a row lock on some tuple of table
`oid` (the check at lock_manager.cpp lines 220-223). -/
def Txn.holdsRowLockOn (txn : Txn) (oid : Nat) : Bool :=
  (txn.sharedRowLocks.any fun p => p.1 == oid && !p.2.isEmpty) ||
  (txn.exclusiveRowLocks.any fun p => p.1 == oid && !p.2.isEmpty)

/-- State update applied by the unlock paths (lines 238-245 / 385-394):
transition to SHRINKING only when the demotion rule fires and the
transaction is not already COMMITTED or ABORTED. -/
def unlockStateUpdate (iso : IsoLevel) (mode : LockMode) (st : TxnState) : TxnState :=
  if unlockDemotes iso mode &&
      !(st == TxnState.COMMITTED) && !(st == TxnState.ABORTED) then
    TxnState.SHRINKING
  else st

/-- Find the first granted request of `txn` in the queue (the range-for
loops of `UnlockTable` line 231 and `UnlockRow` line 380). -/
def findGranted (txnId : Nat) (q : List LockRequest) : Option LockRequest :=
  q.find? fun req => req.txnId == txnId && req.granted

/-- Result of `AbortTransaction` (lock_manager.cpp lines 21-24): state is set
to ABORTED and a `TransactionAbortException` is thrown. -/
def abortTransaction (txn : Txn) (r : AbortReason) : AbortReason × Txn :=
  (r, { txn with state := TxnState.ABORTED })

/-- `LockManager::UnlockTable` (lock_manager.cpp lines 214-253), with the
queue of table `oid` passed explicitly (`queueExists` models
`table_lock_map_.find(oid) != end`).  On success returns the updated
transaction and the queue with the request removed. -/
def unlockTable (txn : Txn) (oid : Nat) (queueExists : Bool)
    (q : List LockRequest) : Except (AbortReason × Txn) (Txn × List LockRequest) :=
  if !queueExists then
    .error (abortTransaction txn .ATTEMPTED_UNLOCK_BUT_NO_LOCK_HELD)
  else if txn.holdsRowLockOn oid then
    .error (abortTransaction txn .TABLE_UNLOCKED_BEFORE_UNLOCKING_ROWS)
  else
    match findGranted txn.txnId q with
    | none => .error (abortTransaction txn .ATTEMPTED_UNLOCK_BUT_NO_LOCK_HELD)
    | some req =>
      .ok ({ txn with state := unlockStateUpdate txn.iso req.mode txn.state },
           q.erase req)

/-- `LockManager::UnlockRow` (lock_manager.cpp lines 370-401): same shape
without the row-lock-set precondition. -/
def unlockRow (txn : Txn) (queueExists : Bool)
    (q : List LockRequest) : Except (AbortReason × Txn) (Txn × List LockRequest) :=
  if !queueExists then
    .error (abortTransaction txn .ATTEMPTED_UNLOCK_BUT_NO_LOCK_HELD)
  else
    match findGranted txn.txnId q with
    | none => .error (abortTransaction txn .ATTEMPTED_UNLOCK_BUT_NO_LOCK_HELD)
    | some req =>
      .ok ({ txn with state := unlockStateUpdate txn.iso req.mode txn.state },
           q.erase req)

theorem findGranted_spec (t : Nat) (q : List LockRequest) (req : LockRequest)
    (h : findGranted t q = some req) : req.txnId = t ∧ req.granted = true := by
  have h2 := List.find?_some h
  simp only [Bool.and_eq_true, beq_iff_eq] at h2
  exact h2

theorem unlockStateUpdate_cases (iso : IsoLevel) (mode : LockMode) (st : TxnState) :
    unlockStateUpdate iso mode st = st ∨
    (unlockStateUpdate iso mode st = TxnState.SHRINKING ∧
      st ≠ TxnState.COMMITTED ∧ st ≠ TxnState.ABORTED) := by
  cases iso <;> cases mode <;> cases st <;> decide

/-- Claim C3 counterexample: take the queue holding two ungranted
INTENTION_SHARED requests and let `r` be the second.  The claim's grant
condition holds for `r` (there is no granted request, and the single earlier
waiter holds IS, which is compatible with IS), yet `GrantLock` returns
false, because the code refuses to grant past any earlier ungranted waiter
regardless of compatibility. -/
theorem grantLock_fifo_counterexample :
    specGrantClaim ⟨1, 2, LockMode.IS, false⟩
        [⟨0, 1, LockMode.IS, false⟩, ⟨1, 2, LockMode.IS, false⟩] = true ∧
    (⟨1, 2, LockMode.IS, false⟩ : LockRequest).granted = false ∧
    (⟨1, 2, LockMode.IS, false⟩ : LockRequest) ∈
        [⟨0, 1, LockMode.IS, false⟩, ⟨1, 2, LockMode.IS, false⟩] ∧
    grantLock ⟨1, 2, LockMode.IS, false⟩
        [⟨0, 1, LockMode.IS, false⟩, ⟨1, 2, LockMode.IS, false⟩] = false := by
  decide

/-- Claim C3 (amended): `GrantLock` returns true for a request `r` iff every
request that precedes `r` in FIFO order is already granted and `r`'s mode is
compatible with each of their modes.  (In particular an earlier waiter
blocks `r` even when their modes are compatible.) -/
theorem grantLock_characterization (r : LockRequest) (q : List LockRequest) :
    grantLock r q = true ↔
      ∀ req ∈ q.takeWhile (fun x => !(x.reqId == r.reqId)),
        req.granted = true ∧ blocks r.mode req.mode = false := by
  induction q with
  | nil => simp [grantLock]
  | cons req rest ih =>
    cases h : (req.reqId == r.reqId) with
    | true =>
      simp [grantLock, h, List.takeWhile_cons]
    | false =>
      cases hg : req.granted with
      | false =>
        simp [grantLock, h, hg, List.takeWhile_cons]
      | true =>
        cases hb : blocks r.mode req.mode with
        | false =>
          simp [grantLock, h, hg, hb, List.takeWhile_cons, ih]
        | true =>
          simp [grantLock, h, hg, hb, List.takeWhile_cons]

/-- Claim C9: a successful `UnlockTable` or `UnlockRow` call removes the
first granted request of the transaction from the queue, leaves the state of
a COMMITTED or ABORTED transaction unchanged, and transitions to SHRINKING
only from a non-terminal state. -/
theorem unlock_preserves_terminal_state (txn txn' : Txn) (oid : Nat)
    (queueExists : Bool) (q q' : List LockRequest)
    (h : unlockTable txn oid queueExists q = .ok (txn', q') ∨
         unlockRow txn queueExists q = .ok (txn', q')) :
    (∃ req, findGranted txn.txnId q = some req ∧ req.granted = true ∧
      q' = q.erase req) ∧
    ((txn.state = TxnState.COMMITTED ∨ txn.state = TxnState.ABORTED) →
      txn'.state = txn.state) ∧
    (txn'.state = TxnState.SHRINKING →
      txn.state ≠ TxnState.COMMITTED ∧ txn.state ≠ TxnState.ABORTED) := by
  have hmain : ∃ req, findGranted txn.txnId q = some req ∧ q' = q.erase req ∧
      txn' = { txn with state := unlockStateUpdate txn.iso req.mode txn.state } := by
    rcases h with h | h
    · unfold unlockTable at h
      split at h
      · exact absurd h (by simp)
      · split at h
        · exact absurd h (by simp)
        · cases hfind : findGranted txn.txnId q with
          | none => rw [hfind] at h; exact absurd h (by simp)
          | some req =>
            rw [hfind] at h
            simp only [Except.ok.injEq, Prod.mk.injEq] at h
            exact ⟨req, rfl, h.2.symm, h.1.symm⟩
    · unfold unlockRow at h
      split at h
      · exact absurd h (by simp)
      · cases hfind : findGranted txn.txnId q with
        | none => rw [hfind] at h; exact absurd h (by simp)
        | some req =>
          rw [hfind] at h
          simp only [Except.ok.injEq, Prod.mk.injEq] at h
          exact ⟨req, rfl, h.2.symm, h.1.symm⟩
  obtain ⟨req, hfind, hq, htxn⟩ := hmain
  have hgr := findGranted_spec txn.txnId q req hfind
  refine ⟨⟨req, hfind, hgr.2, hq⟩, ?_, ?_⟩
  · intro hterm
    rcases unlockStateUpdate_cases txn.iso req.mode txn.state with hc | hc
    · rw [htxn]; exact hc
    · rcases hterm with ht | ht
      · exact absurd ht hc.2.1
      · exact absurd ht hc.2.2
  · intro hshr
    rcases unlockStateUpdate_cases txn.iso req.mode txn.state with hc | hc
    · rw [htxn] at hshr
      simp only at hshr
      rw [hc] at hshr
      rw [hshr]
      exact ⟨by simp, by simp⟩
    · exact ⟨hc.2.1, hc.2.2⟩

/-- Witness for `unlock_preserves_terminal_state` at a concrete input: a
COMMITTED REPEATABLE_READ transaction releasing its granted S table lock. -/
theorem unlock_preserves_terminal_state_witness :
    (unlockTable ⟨5, IsoLevel.REPEATABLE_READ, TxnState.COMMITTED, [], []⟩ 3 true
        [⟨0, 5, LockMode.S, true⟩] =
      .ok (⟨5, IsoLevel.REPEATABLE_READ, TxnState.COMMITTED, [], []⟩, []) ∨
     unlockRow ⟨5, IsoLevel.REPEATABLE_READ, TxnState.COMMITTED, [], []⟩ true
        [⟨0, 5, LockMode.S, true⟩] =
      .ok (⟨5, IsoLevel.REPEATABLE_READ, TxnState.COMMITTED, [], []⟩, [])) ∧
    ((∃ req, findGranted 5 [⟨0, 5, LockMode.S, true⟩] = some req ∧
        req.granted = true ∧ ([] : List LockRequest) = [⟨0, 5, LockMode.S, true⟩].erase req) ∧
     ((TxnState.COMMITTED = TxnState.COMMITTED ∨ TxnState.COMMITTED = TxnState.ABORTED) →
        TxnState.COMMITTED = TxnState.COMMITTED) ∧
     (TxnState.COMMITTED = TxnState.SHRINKING →
        TxnState.COMMITTED ≠ TxnState.COMMITTED ∧ TxnState.COMMITTED ≠ TxnState.ABORTED)) :=
  ⟨Or.inl rfl,
   unlock_preserves_terminal_state
     ⟨5, IsoLevel.REPEATABLE_READ, TxnState.COMMITTED, [], []⟩
     ⟨5, IsoLevel.REPEATABLE_READ, TxnState.COMMITTED, [], []⟩
     3 true [⟨0, 5, LockMode.S, true⟩] [] (Or.inl rfl)⟩

end LockMgr

/-! ## Executors (src/execution/) -/

namespace Exec

/-- Lock-manager call issued by an executor. -/
inductive LockCall
  | lockTable (mode : LockMgr.LockMode) (oid : Nat)
  | lockRow (mode : LockMgr.LockMode) (oid : Nat) (rid : Nat)
deriving DecidableEq, Repr

/-- Executor-level error (`ExecutionException`). -/
inductive ExecError
  | executionFailure (msg : String)
deriving DecidableEq, Repr

/-- State of `InsertExecutor`: the one-shot flag `first_`. -/
structure InsertExec where
  first : Bool
deriving DecidableEq, Repr

/-- State of `DeleteExecutor`: the one-shot flag `deleted_`. -/
structure DeleteExec where
  deleted : Bool
deriving DecidableEq, Repr

/-- `InsertExecutor::Init` (insert_executor.cpp lines 23-26): initializes the
child executor and sets `first_ = true`; the body contains no lock-manager
call, so the emitted trace of lock calls is empty. -/
def InsertExec.init (_e : InsertExec) : InsertExec × List LockCall :=
  ({ first := true }, [])

/-- `DeleteExecutor::Init` (delete_executor.cpp lines 23-31): initializes the
child, sets `deleted_ = false`, and locks the table in INTENTION_EXCLUSIVE,
throwing `ExecutionException` when `LockTable` returns false.  `lockOk`
models the boolean result of `LockManager::LockTable`. -/
def DeleteExec.init (lockOk : Bool) (oid : Nat) (_e : DeleteExec) :
    Except ExecError (DeleteExec × List LockCall) :=
  if lockOk then
    .ok ({ deleted := false }, [LockCall.lockTable LockMgr.LockMode.IX oid])
  else
    .error (.executionFailure "Delete Executor: failed to lock table")

/-- `InsertExecutor::Next` (insert_executor.cpp lines 28-55): nothing after
the first call; otherwise drain the child, count the tuples accepted by
`TableHeap::InsertTuple` (modelled by `heapOk`), and emit the single
one-column count tuple. -/
def InsertExec.next (heapOk : List Int → Bool) (child : List (List Int))
    (e : InsertExec) : Option (List Int) × InsertExec :=
  if !e.first then (none, e)
  else (some [(child.countP (fun t => heapOk t) : Int)], { first := false })

/-- Loop body of `DeleteExecutor::Next` (delete_executor.cpp lines 45-57):
for each child tuple take the row X lock (throwing on failure) and count the
tuples accepted by `MarkDelete`. -/
def deleteLoop (rowLockOk markOk : List Int → Bool) :
    List (List Int) → Except ExecError Nat
  | [] => .ok 0
  | t :: rest =>
    if !rowLockOk t then
      .error (.executionFailure "Delete Executor: failed to lock row")
    else
      match deleteLoop rowLockOk markOk rest with
      | .error err => .error err
      | .ok c => .ok ((if markOk t then 1 else 0) + c)

/-- `DeleteExecutor::Next` (delete_executor.cpp lines 33-63). -/
def DeleteExec.next (rowLockOk markOk : List Int → Bool)
    (child : List (List Int)) (e : DeleteExec) :
    Except ExecError (Option (List Int) × DeleteExec) :=
  if e.deleted then .ok (none, e)
  else
    match deleteLoop rowLockOk markOk child with
    | .error err => .error err
    | .ok c => .ok (some [(c : Int)], { deleted := true })

theorem deleteLoop_all_locked (rowLockOk markOk : List Int → Bool)
    (child : List (List Int)) (h : ∀ t ∈ child, rowLockOk t = true) :
    deleteLoop rowLockOk markOk child = .ok (child.countP markOk) := by
  induction child with
  | nil => rfl
  | cons t rest ih =>
    have ht : rowLockOk t = true := h t (by simp)
    have hrest := ih (fun u hu => h u (by simp [hu]))
    simp [deleteLoop, ht, hrest, List.countP_cons]
    cases hm : markOk t <;> simp [hm, Nat.add_comm]

/-- Claim C5 counterexample: the trace of lock-manager calls issued by
`InsertExecutor::Init` is empty, so in particular it contains no
INTENTION_EXCLUSIVE table-lock request for the target table (oid 7 here):
the claim that Init acquires an IX lock on the target table is false. -/
theorem insert_init_lock_counterexample :
    (InsertExec.init ⟨false⟩).2 = [] ∧
    LockCall.lockTable LockMgr.LockMode.IX 7 ∉ (InsertExec.init ⟨false⟩).2 := by
  decide

/-- Claim C5 (amended): `InsertExecutor::Init` issues no lock-manager call at
all (it only re-initializes the child and the one-shot flag); it is
`DeleteExecutor::Init` that acquires the INTENTION_EXCLUSIVE table lock and
raises an execution error when the acquisition fails. -/
theorem insert_init_no_lock_delete_init_locks (e : InsertExec) (oid : Nat)
    (d : DeleteExec) :
    (InsertExec.init e).2 = [] ∧
    DeleteExec.init true oid d =
      .ok (⟨false⟩, [LockCall.lockTable LockMgr.LockMode.IX oid]) ∧
    DeleteExec.init false oid d =
      .error (.executionFailure "Delete Executor: failed to lock table") :=
  ⟨rfl, rfl, rfl⟩

/-- Claim C10: for every child input (including the empty one) the Insert and
Delete executors return a tuple exactly once after Init — a single one-column
tuple holding the count of affected rows, possibly 0 — and every subsequent
Next call returns nothing, the state being absorbed. -/
theorem insert_delete_next_exactly_once (heapOk rowLockOk markOk : List Int → Bool)
    (child : List (List Int)) (e : InsertExec) (d : DeleteExec) (oid : Nat)
    (hlock : ∀ t ∈ child, rowLockOk t = true) :
    InsertExec.next heapOk child (InsertExec.init e).1 =
      (some [(child.countP heapOk : Int)], ⟨false⟩) ∧
    (∀ child2 : List (List Int),
      InsertExec.next heapOk child2 ⟨false⟩ = (none, ⟨false⟩)) ∧
    (∀ st : Except ExecError (DeleteExec × List LockCall),
      DeleteExec.init true oid d = st →
      st = .ok (⟨false⟩, [LockCall.lockTable LockMgr.LockMode.IX oid])) ∧
    DeleteExec.next rowLockOk markOk child ⟨false⟩ =
      .ok (some [(child.countP markOk : Int)], ⟨true⟩) ∧
    (∀ child2 : List (List Int),
      DeleteExec.next rowLockOk markOk child2 ⟨true⟩ = .ok (none, ⟨true⟩)) := by
  refine ⟨rfl, fun child2 => rfl, fun st hst => hst ▸ rfl, ?_, fun child2 => rfl⟩
  simp [DeleteExec.next, deleteLoop_all_locked rowLockOk markOk child hlock]

/-- Witness for `insert_delete_next_exactly_once`: a two-tuple child where
the heap accepts both tuples and `MarkDelete` accepts one. -/
theorem insert_delete_next_exactly_once_witness :
    (∀ t ∈ [[(1 : Int)], [2]], (fun (_ : List Int) => true) t = true) ∧
    InsertExec.next (fun _ => true) [[(1 : Int)], [2]] (InsertExec.init ⟨false⟩).1 =
      (some [(2 : Int)], ⟨false⟩) :=
  ⟨by decide,
   (insert_delete_next_exactly_once (fun _ => true) (fun _ => true)
     (fun t => t == [(2 : Int)]) [[(1 : Int)], [2]] ⟨false⟩ ⟨false⟩ 4
     (by decide)).1⟩

/-! ### Sort and TopN executors (sort_executor.cpp, topn_executor.cpp) -/

/-- Direction of an order-by key (enum `OrderByType`); the comparator only
distinguishes DESC from everything else. -/
inductive OrderByType
  | ASC
  | DESC
  | DEFAULT
deriving DecidableEq, Repr

/-- The comparison lambda shared verbatim by `SortExecutor::Init`
(sort_executor.cpp lines 17-31) and `TopNExecutor::Init`
(topn_executor.cpp lines 13-26).  Tuples are modelled as lists of integer
values and each order-by expression as a column projection
(`Evaluate` = `getD col 0`). -/
def cmpTuples (orderBys : List (OrderByType × Nat)) (a b : List Int) : Bool :=
  match orderBys with
  | [] => false
  | (ty, col) :: rest =>
    let va := a.getD col 0
    let vb := b.getD col 0
    if !(va == vb) then
      if ty == OrderByType.DESC then decide (vb < va) else decide (va < vb)
    else cmpTuples rest a b

/-- Insert `x` into a `cmp`-sorted list, after any `cmp`-equal elements:
the deterministic comparison-sort primitive used to model both `std::sort`
and `std::priority_queue` (whose behaviour among equivalent elements is
unspecified in C++; this model resolves ties consistently in both). -/
def orderedIns (cmp : α → α → Bool) (x : α) : List α → List α
  | [] => [x]
  | y :: ys => if cmp x y then x :: y :: ys else y :: orderedIns cmp x ys

/-- `SortExecutor::Init` (sort_executor.cpp lines 9-33): drain the child into
a vector and sort it with `cmpTuples`; `std::sort` is modelled as the
deterministic insertion sort built from `orderedIns`.  The executor then
emits this list element by element. -/
def sortInit (orderBys : List (OrderByType × Nat)) (child : List (List Int)) :
    List (List Int) :=
  child.foldl (fun acc x => orderedIns (cmpTuples orderBys) x acc) []

/-- One push of `TopNExecutor::Init`'s loop (topn_executor.cpp lines 39-44):
`q.push(tuple); if (q.size() > N) q.pop();`.  The priority queue is modelled
as a `cmp`-ascending sorted list whose maximal element (the queue's top)
sits last; `pop` removes it. -/
def topnPush (cmp : α → α → Bool) (n : Nat) (q : List α) (x : α) : List α :=
  if n < (orderedIns cmp x q).length then (orderedIns cmp x q).dropLast
  else orderedIns cmp x q

/-- Drain loop of `TopNExecutor::Init` (topn_executor.cpp lines 45-48):
repeatedly move the queue's top (the last element of the sorted-list model)
into `tuples_`, producing the kept tuples in descending order. -/
def popAll (q : List α) : List α := q.reverse

/-- `TopNExecutor::Init` (topn_executor.cpp lines 9-52): fold the child
through the bounded queue, then pop everything and reverse. -/
def topnInit (orderBys : List (OrderByType × Nat)) (n : Nat)
    (child : List (List Int)) : List (List Int) :=
  (popAll (child.foldl (topnPush (cmpTuples orderBys) n) [])).reverse

theorem length_orderedIns (cmp : α → α → Bool) (x : α) (l : List α) :
    (orderedIns cmp x l).length = l.length + 1 := by
  induction l with
  | nil => rfl
  | cons y ys ih =>
    by_cases h : cmp x y = true
    · simp [orderedIns, h]
    · simp [orderedIns, h, ih]

theorem take_orderedIns_take (cmp : α → α → Bool) (x : α) :
    ∀ (n : Nat) (l : List α),
      (orderedIns cmp x (l.take n)).take n = (orderedIns cmp x l).take n := by
  intro n l
  induction l generalizing n with
  | nil => simp
  | cons y ys ih =>
    cases n with
    | zero => simp
    | succ m =>
      by_cases h : cmp x y = true
      · simp only [List.take_succ_cons, orderedIns, h, if_pos]
        cases m with
        | zero => simp
        | succ k =>
          simp [List.take_succ_cons, List.take_take,
            Nat.min_eq_left (Nat.le_succ k)]
      · simp only [List.take_succ_cons, orderedIns, h, if_neg, Bool.not_eq_true]
        simp [ih]

theorem topnPush_take (cmp : α → α → Bool) (n : Nat) (acc : List α) (x : α) :
    topnPush cmp n (acc.take n) x = (orderedIns cmp x acc).take n := by
  unfold topnPush
  by_cases hlen : n ≤ acc.length
  · have hq2 : (orderedIns cmp x (acc.take n)).length = n + 1 := by
      rw [length_orderedIns, List.length_take, Nat.min_eq_left hlen]
    have hc : n < (orderedIns cmp x (acc.take n)).length := by
      rw [hq2]; exact Nat.lt_succ_self n
    rw [if_pos hc]
    rw [List.dropLast_eq_take, hq2]
    simpa using take_orderedIns_take cmp x n acc
  · have hlt : acc.length < n := Nat.lt_of_not_le hlen
    have htake : acc.take n = acc := List.take_of_length_le (Nat.le_of_lt hlt)
    rw [htake]
    have hq2 : (orderedIns cmp x acc).length = acc.length + 1 := length_orderedIns cmp x acc
    rw [if_neg (by omega)]
    rw [List.take_of_length_le (by omega)]

theorem topn_fold_eq_take (cmp : (List Int) → (List Int) → Bool) (n : Nat) :
    ∀ (xs acc : List (List Int)),
      xs.foldl (topnPush cmp n) (acc.take n) =
        (xs.foldl (fun a x => orderedIns cmp x a) acc).take n := by
  intro xs
  induction xs with
  | nil => intro acc; rfl
  | cons x rest ih =>
    intro acc
    simp only [List.foldl_cons]
    rw [topnPush_take]
    exact ih (orderedIns cmp x acc)

theorem length_sortInit (orderBys : List (OrderByType × Nat))
    (child : List (List Int)) : (sortInit orderBys child).length = child.length := by
  unfold sortInit
  suffices h : ∀ (xs acc : List (List Int)),
      (xs.foldl (fun a x => orderedIns (cmpTuples orderBys) x a) acc).length =
        xs.length + acc.length by
    simpa using h child []
  intro xs
  induction xs with
  | nil => intro acc; simp
  | cons x rest ih =>
    intro acc
    simp [List.foldl_cons, ih, length_orderedIns]
    omega

/-- Claim C8: the TopN executor with limit `n` emits exactly the first
`min n (child.length)` tuples of the Sort executor's output over the same
child and order-by keys (the `n` comparator-smallest rows in ascending
order), and the TopN queue is size-bounded: a push onto a queue of at most
`n` elements holds at most `n + 1` elements before the pop restores the
bound.  `std::sort` and `std::priority_queue` leave the relative handling of
comparator-equal tuples unspecified; both are modelled here by the same
deterministic `orderedIns`, resolving ties identically. -/
theorem topn_refines_sort (orderBys : List (OrderByType × Nat)) (n : Nat)
    (child : List (List Int)) :
    topnInit orderBys n child = (sortInit orderBys child).take n ∧
    (sortInit orderBys child).length = child.length ∧
    (topnInit orderBys n child).length = min n child.length ∧
    (∀ (q : List (List Int)) (x : List Int), q.length ≤ n →
      (orderedIns (cmpTuples orderBys) x q).length ≤ n + 1 ∧
      (topnPush (cmpTuples orderBys) n q x).length ≤ n) := by
  have hmain : topnInit orderBys n child = (sortInit orderBys child).take n := by
    unfold topnInit popAll sortInit
    rw [List.reverse_reverse]
    have h := topn_fold_eq_take (cmpTuples orderBys) n child []
    simpa using h
  refine ⟨hmain, length_sortInit orderBys child, ?_, ?_⟩
  · rw [hmain, List.length_take, length_sortInit]
  · intro q x hq
    constructor
    · rw [length_orderedIns]; omega
    · unfold topnPush
      by_cases hlt : n < (orderedIns (cmpTuples orderBys) x q).length
      · rw [if_pos hlt, List.length_dropLast, length_orderedIns]
        omega
      · rw [if_neg hlt, length_orderedIns]
        rw [length_orderedIns] at hlt
        omega

end Exec

/-! ## LRU-K replacer (src/buffer/lru_k_replacer.cpp) -/

namespace LRUK

/-- Per-frame replacer state.  Modelled from the spec: the `Frame` class
lives in `lru_k_replacer.h`, which is not part of the available sources;
§4.2 of the spec describes it as a bounded history of the last `k` access
timestamps (oldest dropped), a validity bit and an evictable bit.
`history` stores timestamps most recent first. -/
structure Frame where
  history : List Nat
  valid : Bool
  evictable : Bool
deriving DecidableEq, Repr, Inhabited

/-- Modelled from the spec: `Frame::Access(ts)` pushes the timestamp and
drops the oldest beyond `k`. -/
def Frame.access (k : Nat) (ts : Nat) (f : Frame) : Frame :=
  { f with history := (ts :: f.history).take k }

/-- Modelled from the spec: `Frame::Full()` holds when `k` accesses are
recorded. -/
def Frame.full (k : Nat) (f : Frame) : Bool :=
  f.history.length == k

/-- Oldest element of a most-recent-first timestamp list (0 when empty). -/
def oldest : List Nat → Nat
  | [] => 0
  | [t] => t
  | _ :: t :: rest => oldest (t :: rest)

/-- Modelled from the spec: `Frame::Timestamp()` is the oldest retained
access timestamp — the `k`-th most recent access when the history is full,
and the first access otherwise. -/
def Frame.timestamp (f : Frame) : Nat :=
  oldest f.history

/-- Modelled from the spec: `Frame::Reset()` clears all per-frame state. -/
def Frame.reset : Frame :=
  { history := [], valid := false, evictable := false }

/-- The comparator `frame_cmp` of `LRUKReplacer::Evict`
(lru_k_replacer.cpp lines 193-195): `a` is a strictly better victim than
`b`. -/
def frameCmp (k : Nat) (a b : Frame) : Bool :=
  if a.full k == b.full k then decide (a.timestamp < b.timestamp)
  else !(a.full k)

/-- `LRUKReplacer` state (fields of lru_k_replacer.h as used by the .cpp):
`frames_` is allocated with `num_frames + 1` entries. -/
structure LRUKReplacer where
  replacerSize : Nat
  k : Nat
  frames : List Frame
  currSize : Nat
  currentTimestamp : Nat
deriving DecidableEq, Repr

/-- `LRUKReplacer::LRUKReplacer(num_frames, k)` (lru_k_replacer.cpp
lines 187-188). -/
def mkReplacer (numFrames k : Nat) : LRUKReplacer :=
  { replacerSize := numFrames, k := k,
    frames := List.replicate (numFrames + 1) Frame.reset,
    currSize := 0, currentTimestamp := 0 }

/-- One step of the selection loop of `LRUKReplacer::Evict`
(lru_k_replacer.cpp lines 199-207): skip non-evictable frames, otherwise
keep the `frameCmp`-least frame seen so far (first index wins ties). -/
def scanStep (fr : Nat → Frame) (k : Nat) (best : Option Nat) (i : Nat) :
    Option Nat :=
  if !(fr i).evictable then best
  else
    match best with
    | none => some i
    | some b => if frameCmp k (fr i) (fr b) then some i else best

/-- The victim-selection scan of `LRUKReplacer::Evict` over frames
`0 .. replacer_size - 1`. -/
def LRUKReplacer.evictScan (r : LRUKReplacer) : Option Nat :=
  (List.range r.replacerSize).foldl
    (scanStep (fun i => r.frames.getD i default) r.k) none

/-- `LRUKReplacer::Evict` (lru_k_replacer.cpp lines 190-214): select the
victim; on success reset its frame and decrement the size. -/
def LRUKReplacer.evict (r : LRUKReplacer) : Option (Nat × LRUKReplacer) :=
  match r.evictScan with
  | none => none
  | some i =>
    some (i, { r with frames := r.frames.set i Frame.reset,
                      currSize := r.currSize - 1 })

/-- `LRUKReplacer::RecordAccess` (lru_k_replacer.cpp lines 216-226): a first
access validates the frame, defaults it evictable and bumps the size; every
access stamps the monotonic counter.  The out-of-range assertion is modelled
as a no-op since all callers pass valid frame ids. -/
def LRUKReplacer.recordAccess (r : LRUKReplacer) (fid : Nat) : LRUKReplacer :=
  if r.replacerSize ≤ fid then r
  else
    let f := r.frames.getD fid default
    let upd := if !f.valid then
        ({ f with valid := true, evictable := true }, r.currSize + 1)
      else (f, r.currSize)
    { r with
      frames := r.frames.set fid (upd.1.access r.k r.currentTimestamp),
      currSize := upd.2,
      currentTimestamp := r.currentTimestamp + 1 }

/-- `LRUKReplacer::SetEvictable` (lru_k_replacer.cpp lines 228-240): no-op on
invalid frames; otherwise toggle the bit and adjust the size. -/
def LRUKReplacer.setEvictable (r : LRUKReplacer) (fid : Nat) (b : Bool) :
    LRUKReplacer :=
  if r.replacerSize ≤ fid then r
  else
    let f := r.frames.getD fid default
    if !f.valid then r
    else if f.evictable != b then
      { r with frames := r.frames.set fid { f with evictable := b },
               currSize := if b then r.currSize + 1 else r.currSize - 1 }
    else r

/-- Modelled from the spec claim wording: the backward K-distance of a frame
(`none` is `+∞`): `+∞` if fewer than `k` accesses are recorded, else
`now` minus the timestamp of the `k`-th most recent access. -/
def backwardKDist (k now : Nat) (f : Frame) : Option Nat :=
  if f.history.length < k then none else some (now - f.timestamp)

/-- Strict comparison of backward K-distances, `none` being `+∞`. -/
def distGTb : Option Nat → Option Nat → Bool
  | none, some _ => true
  | some a, some b => decide (b < a)
  | none, none => false
  | some _, none => false

/-- Modelled from the spec claim wording: `g` is a strictly better victim
than `f` — strictly larger backward K-distance, or both infinite and `g`
has the less recent access timestamp. -/
def specBetter (k now : Nat) (g f : Frame) : Bool :=
  distGTb (backwardKDist k now g) (backwardKDist k now f) ||
  ((backwardKDist k now g).isNone && (backwardKDist k now f).isNone &&
    decide (g.timestamp < f.timestamp))

theorem oldest_mem : ∀ (l : List Nat), l ≠ [] → oldest l ∈ l := by
  intro l
  induction l with
  | nil => intro h; exact absurd rfl h
  | cons a rest ih =>
    intro _
    cases rest with
    | nil => simp [oldest]
    | cons b r2 =>
      have hmem := ih (by simp)
      simp only [oldest]
      exact List.mem_cons_of_mem a hmem

theorem frameTimestamp_le (f : Frame) (now : Nat)
    (h : ∀ t ∈ f.history, t < now) : f.timestamp ≤ now := by
  unfold Frame.timestamp
  cases hh : f.history with
  | nil => simp [oldest]
  | cons a rest =>
    have hm : oldest (a :: rest) ∈ a :: rest := oldest_mem (a :: rest) (by simp)
    have := h (oldest (a :: rest)) (hh ▸ hm)
    omega

theorem frameCmp_irrefl (k : Nat) (f : Frame) : frameCmp k f f = false := by
  simp [frameCmp]

theorem frameCmp_neg_trans (k : Nat) (a b c : Frame)
    (h1 : frameCmp k a b = false) (h2 : frameCmp k b c = false) :
    frameCmp k a c = false := by
  cases ha : a.full k <;> cases hb : b.full k <;> cases hc : c.full k <;>
    simp [frameCmp, ha, hb, hc] at h1 h2 ⊢ <;> omega

theorem frameCmp_shift (k : Nat) (a b c : Frame)
    (h1 : frameCmp k a b = true) (h2 : frameCmp k a c = false) :
    frameCmp k b c = false := by
  cases ha : a.full k <;> cases hb : b.full k <;> cases hc : c.full k <;>
    simp [frameCmp, ha, hb, hc] at h1 h2 ⊢ <;> omega

theorem scanFold_spec (fr : Nat → Frame) (k : Nat) :
    ∀ (l : List Nat) (best : Option Nat),
      (∀ b, best = some b → (fr b).evictable = true) →
      match l.foldl (scanStep fr k) best with
      | none => best = none ∧ ∀ i ∈ l, (fr i).evictable = false
      | some r =>
          (fr r).evictable = true ∧
          (best = some r ∨ r ∈ l) ∧
          (∀ b, best = some b → frameCmp k (fr b) (fr r) = false) ∧
          (∀ i ∈ l, (fr i).evictable = true → frameCmp k (fr i) (fr r) = false) := by
  intro l
  induction l with
  | nil =>
    intro best hb
    cases best with
    | none => exact ⟨rfl, by simp⟩
    | some b =>
      refine ⟨hb b rfl, Or.inl rfl, ?_, by simp⟩
      intro b' hb'
      cases hb'
      exact frameCmp_irrefl k (fr b)
  | cons i rest ih =>
    intro best hb
    simp only [List.foldl_cons]
    by_cases hev : (fr i).evictable = true
    · cases best with
      | none =>
        have hstep : scanStep fr k none i = some i := by
          simp [scanStep, hev]
        rw [hstep]
        have h2 := ih (some i) (by intro b hb2; cases hb2; exact hev)
        revert h2
        cases hres : rest.foldl (scanStep fr k) (some i) with
        | none => intro h2; exact absurd h2.1 (by simp)
        | some r =>
          intro h2
          obtain ⟨hr, hmem, hbest, hall⟩ := h2
          have hir : frameCmp k (fr i) (fr r) = false := hbest i rfl
          refine ⟨hr, ?_, ?_, ?_⟩
          · rcases hmem with hm | hm
            · cases hm; exact Or.inr (by simp)
            · exact Or.inr (by simp [hm])
          · intro b hb2; cases hb2
          · intro j hj hjev
            rcases List.mem_cons.mp hj with hji | hjr
            · cases hji; exact hir
            · exact hall j hjr hjev
      | some b0 =>
        by_cases hcmp : frameCmp k (fr i) (fr b0) = true
        · have hstep : scanStep fr k (some b0) i = some i := by
            simp [scanStep, hev, hcmp]
          rw [hstep]
          have h2 := ih (some i) (by intro b hb2; cases hb2; exact hev)
          revert h2
          cases hres : rest.foldl (scanStep fr k) (some i) with
          | none => intro h2; exact absurd h2.1 (by simp)
          | some r =>
            intro h2
            obtain ⟨hr, hmem, hbest, hall⟩ := h2
            have hir : frameCmp k (fr i) (fr r) = false := hbest i rfl
            refine ⟨hr, ?_, ?_, ?_⟩
            · rcases hmem with hm | hm
              · cases hm; exact Or.inr (by simp)
              · exact Or.inr (by simp [hm])
            · intro b hb2
              cases hb2
              exact frameCmp_shift k (fr i) (fr b0) (fr r) hcmp hir
            · intro j hj hjev
              rcases List.mem_cons.mp hj with hji | hjr
              · cases hji; exact hir
              · exact hall j hjr hjev
        · have hstep : scanStep fr k (some b0) i = some b0 := by
            simp [scanStep, hev, hcmp]
          rw [hstep]
          have h2 := ih (some b0) hb
          revert h2
          cases hres : rest.foldl (scanStep fr k) (some b0) with
          | none => intro h2; exact absurd h2.1 (by simp)
          | some r =>
            intro h2
            obtain ⟨hr, hmem, hbest, hall⟩ := h2
            have hb0r : frameCmp k (fr b0) (fr r) = false := hbest b0 rfl
            refine ⟨hr, ?_, ?_, ?_⟩
            · rcases hmem with hm | hm
              · exact Or.inl hm
              · exact Or.inr (by simp [hm])
            · intro b hb2
              cases hb2
              exact hb0r
            · intro j hj hjev
              rcases List.mem_cons.mp hj with hji | hjr
              · cases hji
                exact frameCmp_neg_trans k (fr i) (fr b0) (fr r)
                  (by simpa using hcmp) hb0r
              · exact hall j hjr hjev
    · have hev' : (fr i).evictable = false := by
        simpa using hev
      have hstep : scanStep fr k best i = best := by
        simp [scanStep, hev']
      rw [hstep]
      have h2 := ih best hb
      revert h2
      cases hres : rest.foldl (scanStep fr k) best with
      | none =>
        intro h2
        refine ⟨h2.1, ?_⟩
        intro j hj
        rcases List.mem_cons.mp hj with hji | hjr
        · cases hji; exact hev'
        · exact h2.2 j hjr
      | some r =>
        intro h2
        obtain ⟨hr, hmem, hbest, hall⟩ := h2
        refine ⟨hr, ?_, hbest, ?_⟩
        · rcases hmem with hm | hm
          · exact Or.inl hm
          · exact Or.inr (by simp [hm])
        · intro j hj hjev
          rcases List.mem_cons.mp hj with hji | hjr
          · cases hji; exact absurd hjev (by simp [hev'])
          · exact hall j hjr hjev

theorem frameCmp_eq_specBetter (k now : Nat) (g f : Frame)
    (hg : g.history.length ≤ k) (hf : f.history.length ≤ k)
    (hgt : g.timestamp ≤ now) (hft : f.timestamp ≤ now) :
    frameCmp k g f = specBetter k now g f := by
  by_cases h1 : g.history.length = k
  · by_cases h2 : f.history.length = k
    · have hng : ¬ g.history.length < k := by omega
      have hnf : ¬ f.history.length < k := by omega
      simp [frameCmp, specBetter, backwardKDist, distGTb, Frame.full,
        h1, h2, hng, hnf, decide_eq_decide]
      omega
    · have hng : ¬ g.history.length < k := by omega
      have hnf : f.history.length < k := by omega
      simp [frameCmp, specBetter, backwardKDist, distGTb, Frame.full,
        h1, h2, hng, hnf]
  · by_cases h2 : f.history.length = k
    · have hng : g.history.length < k := by omega
      have hnf : ¬ f.history.length < k := by omega
      simp [frameCmp, specBetter, backwardKDist, distGTb, Frame.full,
        h1, h2, hng, hnf]
    · have hng : g.history.length < k := by omega
      have hnf : f.history.length < k := by omega
      simp [frameCmp, specBetter, backwardKDist, distGTb, Frame.full,
        h1, h2, hng, hnf]

/-- Well-formedness of a replacer frame relative to the replacer's `k` and
current timestamp counter: the bounded history holds at most `k` entries,
only valid frames are evictable, and every recorded timestamp predates the
monotonic counter.  These hold in every state reachable through
`RecordAccess` / `SetEvictable` / `Evict`. -/
def FrameWF (k now : Nat) (f : Frame) : Prop :=
  f.history.length ≤ k ∧ (f.evictable = true → f.valid = true) ∧
  ∀ t ∈ f.history, t < now

instance (k now : Nat) (f : Frame) : Decidable (FrameWF k now f) := by
  unfold FrameWF
  infer_instance

/-- Claim C6: on a well-formed replacer state, `Evict` returns nothing iff no
valid evictable frame exists; otherwise it resets and returns an evictable
valid frame than which no other evictable frame is a strictly better victim
in the claim's ordering — strictly larger backward K-distance (`+∞` for
frames with fewer than `k` recorded accesses, `now` minus the `k`-th most
recent access timestamp otherwise), ties among `+∞` frames broken towards
the least recent access timestamp. -/
theorem evict_picks_largest_backward_k_distance (r : LRUKReplacer)
    (hwf : ∀ i, i < r.replacerSize →
      FrameWF r.k r.currentTimestamp (r.frames.getD i default)) :
    (r.evict = none ↔
      ∀ i, i < r.replacerSize →
        ¬((r.frames.getD i default).valid = true ∧
          (r.frames.getD i default).evictable = true)) ∧
    (∀ v r2, r.evict = some (v, r2) →
      v < r.replacerSize ∧
      (r.frames.getD v default).valid = true ∧
      (r.frames.getD v default).evictable = true ∧
      r2 = { r with frames := r.frames.set v Frame.reset,
                    currSize := r.currSize - 1 } ∧
      ∀ i, i < r.replacerSize → (r.frames.getD i default).evictable = true →
        specBetter r.k r.currentTimestamp (r.frames.getD i default)
          (r.frames.getD v default) = false) := by
  have hscan := scanFold_spec (fun i => r.frames.getD i default) r.k
    (List.range r.replacerSize) none (by intro b hb; cases hb)
  constructor
  · constructor
    · intro hnone i hi hvi
      unfold LRUKReplacer.evict at hnone
      revert hnone
      cases hres : r.evictScan with
      | none =>
        intro _
        unfold LRUKReplacer.evictScan at hres
        rw [hres] at hscan
        have hfalse : (r.frames.getD i default).evictable = false :=
          hscan.2 i (List.mem_range.mpr hi)
        rw [hvi.2] at hfalse
        exact Bool.noConfusion hfalse
      | some v => intro hnone; exact absurd hnone (by simp)
    · intro hall
      unfold LRUKReplacer.evict
      cases hres : r.evictScan with
      | none => rfl
      | some v =>
        unfold LRUKReplacer.evictScan at hres
        rw [hres] at hscan
        obtain ⟨hev, hmem, -, -⟩ := hscan
        rcases hmem with hm | hm
        · cases hm
        · have hvlt := List.mem_range.mp hm
          have hvalid := (hwf v hvlt).2.1 hev
          exact absurd ⟨hvalid, hev⟩ (hall v hvlt)
  · intro v r2 hsome
    unfold LRUKReplacer.evict at hsome
    revert hsome
    cases hres : r.evictScan with
    | none => intro hsome; cases hsome
    | some w =>
      intro hsome
      simp only [Option.some.injEq, Prod.mk.injEq] at hsome
      obtain ⟨hwv, hr2⟩ := hsome
      cases hwv
      unfold LRUKReplacer.evictScan at hres
      rw [hres] at hscan
      obtain ⟨hev, hmem, -, hall⟩ := hscan
      have hvlt : v < r.replacerSize := by
        rcases hmem with hm | hm
        · cases hm
        · exact List.mem_range.mp hm
      refine ⟨hvlt, (hwf v hvlt).2.1 hev, hev, hr2.symm, ?_⟩
      intro i hi hiev
      have hcmp := hall i (List.mem_range.mpr hi) hiev
      have hwi := hwf i hi
      have hwv2 := hwf v hvlt
      rw [← frameCmp_eq_specBetter r.k r.currentTimestamp _ _ hwi.1 hwv2.1
        (frameTimestamp_le _ _ hwi.2.2) (frameTimestamp_le _ _ hwv2.2.2)]
      exact hcmp

/-- Concrete replacer used as witness for claim C6: `k = 2`, access sequence
on frames 1, 2, 3, 1, 2 (the spec's own LRU-K example); frame 3 is the
single frame with infinite backward K-distance and is evicted. -/
def sampleReplacer : LRUKReplacer :=
  (((((mkReplacer 7 2).recordAccess 1).recordAccess 2).recordAccess
      3).recordAccess 1).recordAccess 2

/-- Witness for `evict_picks_largest_backward_k_distance` at
`sampleReplacer`: the well-formedness hypothesis holds there, frame 3 is
evicted, and no evictable frame is a strictly better victim. -/
theorem evict_picks_largest_backward_k_distance_witness :
    (∀ i, i < sampleReplacer.replacerSize →
      FrameWF sampleReplacer.k sampleReplacer.currentTimestamp
        (sampleReplacer.frames.getD i default)) ∧
    sampleReplacer.evict.map Prod.fst = some 3 ∧
    (∀ v r2, sampleReplacer.evict = some (v, r2) →
      v < sampleReplacer.replacerSize ∧
      (sampleReplacer.frames.getD v default).valid = true ∧
      (sampleReplacer.frames.getD v default).evictable = true ∧
      r2 = { sampleReplacer with
               frames := sampleReplacer.frames.set v Frame.reset,
               currSize := sampleReplacer.currSize - 1 } ∧
      ∀ i, i < sampleReplacer.replacerSize →
        (sampleReplacer.frames.getD i default).evictable = true →
        specBetter sampleReplacer.k sampleReplacer.currentTimestamp
          (sampleReplacer.frames.getD i default)
          (sampleReplacer.frames.getD v default) = false) :=
  ⟨by decide, by decide,
   (evict_picks_largest_backward_k_distance sampleReplacer (by decide)).2⟩

end LRUK

/-! ## Buffer pool manager (src/buffer/buffer_pool_manager_instance.cpp) -/

namespace BPM

open LRUK

/-- In-memory page header (`Page`): page id (-1 = INVALID), pin count and
dirty flag.  The byte buffer is disk I/O payload and is not modelled. -/
structure Page where
  pageId : Int
  pinCount : Nat
  isDirty : Bool
deriving DecidableEq, Repr, Inhabited

/-- Buffer pool state (fields of `BufferPoolManagerInstance`).  The
extendible-hash page table is modelled as an association list. -/
structure BufferPool where
  poolSize : Nat
  pages : List Page
  pageTable : List (Int × Nat)
  replacer : LRUKReplacer
  freeList : List Nat
  nextPageId : Int
deriving DecidableEq, Repr

/-- `page_table_->Find(pid, fid)`. -/
def ptFind (pt : List (Int × Nat)) (pid : Int) : Option Nat :=
  (pt.find? (fun e => e.1 == pid)).map Prod.snd

/-- `page_table_->Remove(pid)`. -/
def ptRemove (pt : List (Int × Nat)) (pid : Int) : List (Int × Nat) :=
  pt.filter (fun e => !(e.1 == pid))

/-- `page_table_->Insert(pid, fid)` (updates the key when present). -/
def ptInsert (pt : List (Int × Nat)) (pid : Int) (fid : Nat) : List (Int × Nat) :=
  (pid, fid) :: ptRemove pt pid

/-- `BufferPoolManagerInstance::BufferPoolManagerInstance` (lines 25-37):
default-constructed pages, an empty page table, a fresh replacer and every
frame in the free list. -/
def mkBufferPool (poolSize k : Nat) : BufferPool :=
  { poolSize := poolSize,
    pages := List.replicate poolSize { pageId := -1, pinCount := 0, isDirty := false },
    pageTable := [],
    replacer := mkReplacer poolSize k,
    freeList := List.range poolSize,
    nextPageId := 0 }

/-- Frame acquisition shared by `NewPgImp` (lines 47-59) and `FetchPgImp`
(lines 82-93): take the head of the free list, else evict (removing the
victim from the page table; the dirty write-back is disk I/O and is not
modelled), else fail. -/
def BufferPool.acquireFrame (b : BufferPool) : Option (Nat × BufferPool) :=
  match b.freeList with
  | fid :: rest => some (fid, { b with freeList := rest })
  | [] =>
    match b.replacer.evict with
    | none => none
    | some (fid, rep) =>
      let victim := b.pages.getD fid default
      some (fid, { b with replacer := rep,
                          pageTable := ptRemove b.pageTable victim.pageId })

/-- `BufferPoolManagerInstance::NewPgImp` (lines 45-70): acquire a frame,
allocate a fresh page id, reset the page with `pin = 1`, install it in the
page table, record the access and pin the frame in the replacer. -/
def BufferPool.newPage (b : BufferPool) : Option (Int × BufferPool) :=
  match b.acquireFrame with
  | none => none
  | some (fid, b1) =>
    let pid := b1.nextPageId
    some (pid,
      { b1 with
        pages := b1.pages.set fid { pageId := pid, pinCount := 1, isDirty := false },
        pageTable := ptInsert b1.pageTable pid fid,
        replacer := (b1.replacer.recordAccess fid).setEvictable fid false,
        nextPageId := b1.nextPageId + 1 })

/-- `BufferPoolManagerInstance::FetchPgImp` (lines 72-104): pin and touch a
resident page, else acquire a frame as in `NewPgImp` and install the page
read from disk. -/
def BufferPool.fetchPage (b : BufferPool) (pid : Int) : Option (Nat × BufferPool) :=
  match ptFind b.pageTable pid with
  | some fid =>
    let page := b.pages.getD fid default
    some (fid,
      { b with
        pages := b.pages.set fid { page with pinCount := page.pinCount + 1 },
        replacer := (b.replacer.recordAccess fid).setEvictable fid false })
  | none =>
    match b.acquireFrame with
    | none => none
    | some (fid, b1) =>
      some (fid,
        { b1 with
          pages := b1.pages.set fid { pageId := pid, pinCount := 1, isDirty := false },
          pageTable := ptInsert b1.pageTable pid fid,
          replacer := (b1.replacer.recordAccess fid).setEvictable fid false })

/-- `BufferPoolManagerInstance::UnpinPgImp` (lines 106-121). -/
def BufferPool.unpinPage (b : BufferPool) (pid : Int) (isDirty : Bool) :
    Bool × BufferPool :=
  match ptFind b.pageTable pid with
  | none => (false, b)
  | some fid =>
    let page := b.pages.getD fid default
    if page.pinCount == 0 then (false, b)
    else
      let newPin := page.pinCount - 1
      (true,
        { b with
          pages := b.pages.set fid
            { page with pinCount := newPin, isDirty := page.isDirty || isDirty },
          replacer := if newPin == 0 then b.replacer.setEvictable fid true
                      else b.replacer })

/-- `BufferPoolManagerInstance::FlushPgImp` (lines 123-132): the write itself
is disk I/O; the state change clears the dirty flag. -/
def BufferPool.flushPage (b : BufferPool) (pid : Int) : Bool × BufferPool :=
  match ptFind b.pageTable pid with
  | none => (false, b)
  | some fid =>
    let page := b.pages.getD fid default
    (true, { b with pages := b.pages.set fid { page with isDirty := false } })

/-- Run `n` consecutive `NewPage` calls, collecting the success of each
(`true` iff the call returned a non-null page). -/
def runNewPages : Nat → BufferPool → List Bool × BufferPool
  | 0, b => ([], b)
  | n + 1, b =>
    match b.newPage with
    | none =>
      let r := runNewPages n b
      (false :: r.1, r.2)
    | some (_, b1) =>
      let r := runNewPages n b1
      (true :: r.1, r.2)

/-- Well-formedness of a buffer pool state: the replacer covers exactly the
pool's frames, and every occupied (non-free) non-evictable frame holds a
pinned page — the direction of spec §4.3 invariant (a) (`pin > 0` iff frame
not evictable) needed to characterise `NewPage` failure.  Both clauses hold
in every state reachable through the pool's operations. -/
def BufferPool.wf (b : BufferPool) : Prop :=
  b.replacer.replacerSize = b.poolSize ∧
  ∀ fid, fid < b.poolSize → fid ∉ b.freeList →
    (b.replacer.frames.getD fid default).evictable = false →
    (b.pages.getD fid default).pinCount > 0

instance (b : BufferPool) : Decidable b.wf := by
  unfold BufferPool.wf
  infer_instance

theorem newPage_none_all_pinned (b : BufferPool) (hwf : b.wf)
    (hnone : b.newPage = none) :
    b.freeList = [] ∧
    ∀ fid, fid < b.poolSize → (b.pages.getD fid default).pinCount > 0 := by
  have hacq : b.acquireFrame = none := by
    revert hnone
    unfold BufferPool.newPage
    cases hra : b.acquireFrame with
    | none => intro _; rfl
    | some p => intro hn; exact absurd hn (by simp)
  have hfl : b.freeList = [] := by
    revert hacq
    unfold BufferPool.acquireFrame
    cases hfl : b.freeList with
    | nil => intro _; rfl
    | cons f rest => intro h; exact absurd h (by simp)
  have hev : b.replacer.evict = none := by
    revert hacq
    unfold BufferPool.acquireFrame
    rw [hfl]
    cases hev : b.replacer.evict with
    | none => intro _; rfl
    | some p => intro h; exact absurd h (by simp)
  have hscanNone : b.replacer.evictScan = none := by
    revert hev
    unfold LRUKReplacer.evict
    cases hs : b.replacer.evictScan with
    | none => intro _; rfl
    | some v => intro h; exact absurd h (by simp)
  have hscan := scanFold_spec (fun i => b.replacer.frames.getD i default)
    b.replacer.k (List.range b.replacer.replacerSize) none
    (by intro c hc; cases hc)
  unfold LRUKReplacer.evictScan at hscanNone
  rw [hscanNone] at hscan
  refine ⟨hfl, ?_⟩
  intro fid hfid
  have hfid2 : fid < b.replacer.replacerSize := by
    rw [hwf.1]; exact hfid
  have hnev : (b.replacer.frames.getD fid default).evictable = false :=
    hscan.2 fid (List.mem_range.mpr hfid2)
  exact hwf.2 fid hfid (by rw [hfl]; simp) hnev

/-- Claim C4 counterexample: from a fresh pool of size 10 (no frame pinned),
11 consecutive `NewPage` calls with no intervening `UnpinPage` do NOT all
return a page: each successful call pins its page and marks the frame
non-evictable, so the 11th call finds the free list empty and no evictable
frame and returns null. -/
theorem newPage_eleven_calls_counterexample :
    (runNewPages 11 (mkBufferPool 10 2)).1.all (fun s => s) = false ∧
    (runNewPages 11 (mkBufferPool 10 2)).1 =
      List.replicate 10 true ++ [false] := by
  decide

/-- Claim C4 (amended): on a pool of size 10 whose frames all start in the
free list, the first 10 consecutive `NewPage` calls return a page and the
11th returns null (all 10 frames then hold pinned pages); in general, on a
well-formed pool, `NewPage` returns null only when the free list is empty
and every frame holds a pinned page. -/
theorem newPage_fails_only_when_all_pinned :
    (runNewPages 11 (mkBufferPool 10 2)).1 =
      List.replicate 10 true ++ [false] ∧
    ∀ b : BufferPool, b.wf → b.newPage = none →
      b.freeList = [] ∧
      ∀ fid, fid < b.poolSize → (b.pages.getD fid default).pinCount > 0 :=
  ⟨by decide, fun b hwf hnone => newPage_none_all_pinned b hwf hnone⟩

/-- The pool obtained from 10 consecutive `NewPage` calls on a fresh pool of
size 10: every frame holds a pinned page. -/
def fullPool : BufferPool := (runNewPages 10 (mkBufferPool 10 2)).2

/-- Witness for `newPage_fails_only_when_all_pinned` at the concrete
`fullPool` state: the well-formedness and failure hypotheses hold there and
the conclusion follows by the theorem. -/
theorem newPage_fails_only_when_all_pinned_witness :
    fullPool.wf ∧ fullPool.newPage = none ∧
    (fullPool.freeList = [] ∧
      ∀ fid, fid < fullPool.poolSize →
        (fullPool.pages.getD fid default).pinCount > 0) :=
  ⟨by decide, by decide,
   newPage_fails_only_when_all_pinned.2 fullPool (by decide) (by decide)⟩

end BPM

/-! ## Extendible hash table (src/container/hash/extendible_hash_table.cpp) -/

namespace EHT

/-- A bucket (`ExtendibleHashTable::Bucket`): capacity (`size_`), local depth
(`depth_`) and the ordered entry list (`list_`).  `IsFull` lives in the
missing header; per the spec each bucket has capacity `bucket_size`. -/
structure Bucket where
  size : Nat
  depth : Nat
  list : List (Nat × Nat)
deriving DecidableEq, Repr, Inhabited

/-- Modelled from the spec: `Bucket::IsFull()` — the entry list has reached
the capacity `bucket_size`. -/
def Bucket.isFull (bk : Bucket) : Bool :=
  bk.list.length == bk.size

/-- `Bucket::Find` (extendible_hash_table.cpp lines 128-136). -/
def Bucket.find (bk : Bucket) (key : Nat) : Option Nat :=
  (bk.list.find? (fun p => p.1 == key)).map Prod.snd

/-- `Bucket::Remove` (lines 139-146): erase the first entry with the key. -/
def Bucket.removeKey (bk : Bucket) (key : Nat) : Bool × Bucket :=
  if bk.list.any (fun p => p.1 == key) then
    (true, { bk with list := bk.list.eraseP (fun p => p.1 == key) })
  else (false, bk)

/-- Overwrite the value of the first entry holding `key`
(`pos->second = value` in `Bucket::Insert`). -/
def updateFirst (key value : Nat) : List (Nat × Nat) → List (Nat × Nat)
  | [] => []
  | p :: rest =>
    if p.1 == key then (key, value) :: rest
    else p :: updateFirst key value rest

/-- `Bucket::Insert` (lines 149-160): update an existing key, refuse when
full, else append. -/
def Bucket.insert (bk : Bucket) (key value : Nat) : Bool × Bucket :=
  if bk.list.any (fun p => p.1 == key) then
    (true, { bk with list := updateFirst key value bk.list })
  else if bk.isFull then (false, bk)
  else (true, { bk with list := bk.list ++ [(key, value)] })

/-- Extendible hash table state (`ExtendibleHashTable<K,V>`): shared-pointer
bucket identity is modelled by indices into the `buckets` arena, so two
directory slots alias the same bucket exactly when they hold the same
index. -/
structure HashTable where
  globalDepth : Nat
  bucketSize : Nat
  numBuckets : Nat
  dir : List Nat
  buckets : List Bucket
deriving DecidableEq, Repr

/-- `ExtendibleHashTable::ExtendibleHashTable(bucket_size)` (lines 26-30). -/
def mkTable (bucketSize : Nat) : HashTable :=
  { globalDepth := 0, bucketSize := bucketSize, numBuckets := 1,
    dir := [0], buckets := [{ size := bucketSize, depth := 0, list := [] }] }

/-- `ExtendibleHashTable::IndexOf` (lines 32-36):
`hash(key) & ((1 << global_depth) - 1)`, i.e. the low `global_depth` bits,
written as a remainder. -/
def HashTable.indexOf (t : HashTable) (hash : Nat → Nat) (key : Nat) : Nat :=
  hash key % 2 ^ t.globalDepth

/-- The bucket referenced by directory slot `i`. -/
def HashTable.bucketAt (t : HashTable) (i : Nat) : Bucket :=
  t.buckets.getD (t.dir.getD i 0) default

/-- `ExtendibleHashTable::Find` (lines 71-75). -/
def HashTable.findKey (t : HashTable) (hash : Nat → Nat) (key : Nat) :
    Option Nat :=
  (t.bucketAt (t.indexOf hash key)).find key

/-- `ExtendibleHashTable::Remove` (lines 77-81). -/
def HashTable.removeKey (t : HashTable) (hash : Nat → Nat) (key : Nat) :
    Bool × HashTable :=
  let bid := t.dir.getD (t.indexOf hash key) 0
  let res := (t.buckets.getD bid default).removeKey key
  (res.1, { t with buckets := t.buckets.set bid res.2 })

/-- Directory doubling of `ExtendibleHashTable::Insert` (lines 92-100):
`dir_new[i] = dir_old[i & ((1 << old_g) - 1)]` and `++global_depth_`. -/
def HashTable.doubleDir (t : HashTable) : HashTable :=
  { t with globalDepth := t.globalDepth + 1,
           dir := (List.range (2 ^ (t.globalDepth + 1))).map
             (fun i => t.dir.getD (i % 2 ^ t.globalDepth) 0) }

/-- Directory rewiring of the split (lines 101-107).  The source iterates
`i < 2^(g - old_depth)` writing `dir_[i << old_depth | mask]`; since the
directory has length `2^g`, the slots written are exactly those `p` with
`p % 2^old_depth = mask`, and the written bucket is chosen by bit
`old_depth` of `p`, i.e. `(p / 2^old_depth) % 2`. -/
def rewireDir (dir : List Nat) (oldDepth mask bid0 bid1 : Nat) : List Nat :=
  (List.range dir.length).map (fun p =>
    if p % 2 ^ oldDepth == mask then
      (if (p / 2 ^ oldDepth) % 2 == 1 then bid1 else bid0)
    else dir.getD p 0)

/-- `ExtendibleHashTable::RedistributeBucket` (lines 113-119): re-insert
every entry of the evicted bucket through the directory (the boolean result
of the inner insert is discarded by the source). -/
def HashTable.redistribute (t : HashTable) (hash : Nat → Nat)
    (items : List (Nat × Nat)) : HashTable :=
  items.foldl
    (fun t2 kv =>
      let bid := t2.dir.getD (t2.indexOf hash kv.1) 0
      let res := (t2.buckets.getD bid default).insert kv.1 kv.2
      { t2 with buckets := t2.buckets.set bid res.2 })
    t

/-- Directory-doubling guard of the split (`Insert`, lines 91-100): the
directory doubles exactly when the overfull bucket's local depth has reached
the global depth. -/
def HashTable.grow (t : HashTable) (oldDepth : Nat) : HashTable :=
  if oldDepth == t.globalDepth then t.doubleDir else t

/-- Bucket-pair creation and directory rewiring of the split (`Insert`,
lines 101-107): two fresh buckets at local depth `old_depth + 1` are
appended to the arena and every slot of the old bucket's stamp class is
pointed at one of them by bit `old_depth`. -/
def HashTable.splitWire (t : HashTable) (bucketSize oldDepth mask : Nat) :
    HashTable :=
  { t with
    buckets := t.buckets ++
      [{ size := bucketSize, depth := oldDepth + 1, list := [] },
       { size := bucketSize, depth := oldDepth + 1, list := [] }],
    dir := rewireDir t.dir oldDepth mask t.buckets.length
      (t.buckets.length + 1) }

/-- The whole split path of one failed insert iteration (`Insert`, lines
90-109 before the `++num_buckets_`): grow the directory if needed, create
and wire the bucket pair, and redistribute the old bucket's entries. -/
def HashTable.splitAll (t : HashTable) (hash : Nat → Nat) (key : Nat) :
    HashTable :=
  ((t.grow (t.bucketAt (t.indexOf hash key)).depth).splitWire t.bucketSize
      (t.bucketAt (t.indexOf hash key)).depth
      (t.indexOf hash key % 2 ^ (t.bucketAt (t.indexOf hash key)).depth)).redistribute
    hash (t.bucketAt (t.indexOf hash key)).list

/-- `++num_buckets_` (line 109). -/
def HashTable.bumpNumBuckets (t : HashTable) : HashTable :=
  { t with numBuckets := t.numBuckets + 1 }

/-- One iteration of the `while (true)` insert loop
(`ExtendibleHashTable::Insert`, lines 84-111): returns `(true, _)` when the
bucket insert succeeded, else doubles the directory if needed, splits the
bucket, redistributes its entries, bumps `num_buckets_` and returns
`(false, _)` so the caller retries. -/
def HashTable.insertOnce (t : HashTable) (hash : Nat → Nat) (key value : Nat) :
    Bool × HashTable :=
  if ((t.bucketAt (t.indexOf hash key)).insert key value).1 then
    (true,
      { t with
        buckets := (t.buckets.set (t.dir.getD (t.indexOf hash key) 0)
          ((t.bucketAt (t.indexOf hash key)).insert key value).2) })
  else
    (false, (t.splitAll hash key).bumpNumBuckets)

/-- The `while (true)` loop of `ExtendibleHashTable::Insert`, made total
with fuel (the C++ loop runs until the insert lands; every iteration leaves
the state well-formed, so the theorems below hold for any fuel). -/
def HashTable.insertFuel (t : HashTable) (hash : Nat → Nat)
    (key value : Nat) : Nat → HashTable
  | 0 => t
  | fuel + 1 =>
    if (t.insertOnce hash key value).1 then (t.insertOnce hash key value).2
    else (t.insertOnce hash key value).2.insertFuel hash key value fuel

/-- The operations of the table's public interface. -/
inductive Op
  | insertOp (key value : Nat)
  | removeOp (key : Nat)
  | findOp (key : Nat)
deriving DecidableEq, Repr

/-- Apply one operation (`Find` does not change the state). -/
def applyOp (hash : Nat → Nat) (fuel : Nat) (t : HashTable) : Op → HashTable
  | .insertOp k v => t.insertFuel hash k v fuel
  | .removeOp k => (t.removeKey hash k).2
  | .findOp _ => t

/-- Run a sequence of operations from a given state. -/
def runOps (hash : Nat → Nat) (fuel : Nat) (t : HashTable) (ops : List Op) :
    HashTable :=
  ops.foldl (applyOp hash fuel) t

/-- The claim's invariant: the directory has length `2^globalDepth`, every
slot references an arena bucket whose local depth is at most the global
depth, and any two slots agreeing on the low `l` bits (the bucket stamp)
reference the same bucket. -/
def HashTable.inv (t : HashTable) : Prop :=
  t.dir.length = 2 ^ t.globalDepth ∧
  (∀ i, i < t.dir.length → t.dir.getD i 0 < t.buckets.length) ∧
  ∀ i, i < t.dir.length →
    (t.bucketAt i).depth ≤ t.globalDepth ∧
    ∀ j, j < t.dir.length →
      j % 2 ^ (t.bucketAt i).depth = i % 2 ^ (t.bucketAt i).depth →
      t.dir.getD j 0 = t.dir.getD i 0

instance (t : HashTable) : Decidable t.inv := by
  unfold HashTable.inv HashTable.bucketAt
  infer_instance

theorem getD_map_range {α : Type} (n p : Nat) (d : α) (f : Nat → α) :
    ((List.range n).map f).getD p d = if p < n then f p else d := by
  by_cases h : p < n
  · rw [if_pos h, List.getD_eq_getElem?_getD, List.getElem?_map,
      List.getElem?_range h]
    rfl
  · rw [if_neg h, List.getD_eq_getElem?_getD, List.getElem?_eq_none]
    · rfl
    · simp only [List.length_map, List.length_range]
      omega

theorem getD_set_elem {α : Type} (l : List α) (i j : Nat) (a d : α) :
    (l.set i a).getD j d = if i = j ∧ i < l.length then a else l.getD j d := by
  rw [List.getD_eq_getElem?_getD, List.getElem?_set]
  by_cases hij : i = j
  · subst hij
    by_cases hi : i < l.length
    · simp [hi]
    · have h1 : l[i]? = none := List.getElem?_eq_none (by omega)
      simp [hi, h1, List.getD_eq_getElem?_getD]
  · simp [hij, List.getD_eq_getElem?_getD]

theorem getD_append_lt {α : Type} (l1 l2 : List α) (i : Nat) (d : α)
    (h : i < l1.length) : (l1 ++ l2).getD i d = l1.getD i d := by
  rw [List.getD_eq_getElem?_getD, List.getD_eq_getElem?_getD,
    List.getElem?_append_left h]

theorem getD_append_ge {α : Type} (l1 l2 : List α) (i : Nat) (d : α)
    (h : l1.length ≤ i) : (l1 ++ l2).getD i d = l2.getD (i - l1.length) d := by
  rw [List.getD_eq_getElem?_getD, List.getD_eq_getElem?_getD,
    List.getElem?_append_right h]

theorem div_pow_mod_two (x n : Nat) : x / 2 ^ n % 2 = x % 2 ^ (n + 1) / 2 ^ n := by
  rw [pow_succ]
  exact (Nat.mod_mul_right_div_self x (2 ^ n) 2).symm

theorem mod_pow_mod_pow (a l g : Nat) (h : l ≤ g) :
    a % 2 ^ g % 2 ^ l = a % 2 ^ l :=
  Nat.mod_mod_of_dvd a (pow_dvd_pow 2 h)

theorem bucketInsert_depth (bk : Bucket) (key value : Nat) :
    (bk.insert key value).2.depth = bk.depth := by
  unfold Bucket.insert
  split
  · rfl
  · split <;> rfl

theorem bucketRemove_depth (bk : Bucket) (key : Nat) :
    (bk.removeKey key).2.depth = bk.depth := by
  unfold Bucket.removeKey
  split <;> rfl

theorem inv_mkTable (bucketSize : Nat) : (mkTable bucketSize).inv := by
  refine ⟨rfl, ?_, ?_⟩
  · intro i hi
    simp only [mkTable, List.length_cons, List.length_nil] at hi ⊢
    have hi0 : i = 0 := by omega
    subst hi0
    decide
  · intro i hi
    simp only [mkTable, List.length_cons, List.length_nil] at hi
    have hi0 : i = 0 := by omega
    subst hi0
    refine ⟨by simp [HashTable.bucketAt, mkTable], ?_⟩
    intro j hj _
    simp only [mkTable, List.length_cons, List.length_nil] at hj
    have hj0 : j = 0 := by omega
    subst hj0
    rfl

theorem inv_setBucket (t : HashTable) (bid : Nat) (bk2 : Bucket)
    (hinv : t.inv)
    (hdepth : bid < t.buckets.length →
      bk2.depth = (t.buckets.getD bid default).depth) :
    HashTable.inv { t with buckets := t.buckets.set bid bk2 } := by
  obtain ⟨hlen, hids, hmain⟩ := hinv
  refine ⟨hlen, ?_, ?_⟩
  · intro i hi
    simp only [List.length_set]
    exact hids i hi
  · intro i hi
    have hdepthAt : ∀ p, p < t.dir.length →
        (HashTable.bucketAt { t with buckets := t.buckets.set bid bk2 } p).depth =
          (t.bucketAt p).depth := by
      intro p hp
      unfold HashTable.bucketAt
      simp only
      rw [getD_set_elem]
      split
      · rename_i hcase
        rw [← hcase.1]
        exact hdepth hcase.2
      · rfl
    refine ⟨?_, ?_⟩
    · rw [hdepthAt i hi]
      exact (hmain i hi).1
    · intro j hj hmod
      rw [hdepthAt i hi] at hmod
      exact (hmain i hi).2 j hj hmod

theorem doubleDir_dir_getD (t : HashTable) (p : Nat)
    (hp : p < 2 ^ (t.globalDepth + 1)) :
    t.doubleDir.dir.getD p 0 = t.dir.getD (p % 2 ^ t.globalDepth) 0 := by
  unfold HashTable.doubleDir
  simp only
  rw [getD_map_range, if_pos hp]

theorem inv_doubleDir (t : HashTable) (hinv : t.inv) : t.doubleDir.inv := by
  obtain ⟨hlen, hids, hmain⟩ := hinv
  have hdlen : t.doubleDir.dir.length = 2 ^ (t.globalDepth + 1) := by
    unfold HashTable.doubleDir
    simp
  have hmlt : ∀ p : Nat, p % 2 ^ t.globalDepth < t.dir.length := by
    intro p
    rw [hlen]
    exact Nat.mod_lt _ (by positivity)
  have hBAt : ∀ p, p < 2 ^ (t.globalDepth + 1) →
      t.doubleDir.bucketAt p = t.bucketAt (p % 2 ^ t.globalDepth) := by
    intro p hp
    unfold HashTable.bucketAt
    rw [show t.doubleDir.buckets = t.buckets from rfl,
      doubleDir_dir_getD t p hp]
  refine ⟨by rw [hdlen]; rfl, ?_, ?_⟩
  · intro i hi
    rw [hdlen] at hi
    rw [show t.doubleDir.buckets = t.buckets from rfl,
      doubleDir_dir_getD t i hi]
    exact hids _ (hmlt i)
  · intro i hi
    rw [hdlen] at hi
    rw [hBAt i hi]
    obtain ⟨hdep, hagree⟩ := hmain (i % 2 ^ t.globalDepth) (hmlt i)
    refine ⟨?_, ?_⟩
    · show _ ≤ t.globalDepth + 1
      omega
    · intro j hj hmod
      rw [hdlen] at hj
      rw [doubleDir_dir_getD t j hj, doubleDir_dir_getD t i hi]
      apply hagree (j % 2 ^ t.globalDepth) (hmlt j)
      rw [mod_pow_mod_pow j _ _ hdep, mod_pow_mod_pow i _ _ hdep]
      exact hmod

theorem inv_rewire (t : HashTable) (hinv : t.inv) (index : Nat)
    (hindex : index < t.dir.length)
    (hlt : (t.bucketAt index).depth < t.globalDepth)
    (B0 B1 : Bucket)
    (hB0 : B0.depth = (t.bucketAt index).depth + 1)
    (hB1 : B1.depth = (t.bucketAt index).depth + 1) :
    HashTable.inv
      { t with
        buckets := t.buckets ++ [B0, B1],
        dir := rewireDir t.dir (t.bucketAt index).depth
          (index % 2 ^ (t.bucketAt index).depth)
          t.buckets.length (t.buckets.length + 1) } := by
  obtain ⟨hlen, hids, hmain⟩ := hinv
  set od := (t.bucketAt index).depth with hod
  set m := index % 2 ^ od with hm
  set len := t.buckets.length with hlenb
  set t2 : HashTable :=
    { t with buckets := t.buckets ++ [B0, B1],
             dir := rewireDir t.dir od m len (len + 1) } with ht2
  have hdlen : t2.dir.length = t.dir.length := by
    rw [ht2]
    simp [rewireDir]
  have hblen : t2.buckets.length = len + 2 := by
    rw [ht2]
    simp [hlenb]
  have hdir2 : ∀ p, p < t.dir.length → t2.dir.getD p 0 =
      if p % 2 ^ od = m then (if (p / 2 ^ od) % 2 = 1 then len + 1 else len)
      else t.dir.getD p 0 := by
    intro p hp
    rw [ht2]
    show (rewireDir t.dir od m len (len + 1)).getD p 0 = _
    unfold rewireDir
    rw [getD_map_range, if_pos hp]
    by_cases h1 : p % 2 ^ od = m
    · by_cases h2 : (p / 2 ^ od) % 2 = 1
      · simp [h1, h2]
      · simp [h1, h2]
    · simp [h1]
  have hBAt_touched : ∀ p, p < t.dir.length → p % 2 ^ od = m →
      t2.bucketAt p = (if (p / 2 ^ od) % 2 = 1 then B1 else B0) := by
    intro p hp hpm
    unfold HashTable.bucketAt
    rw [show t2.buckets = t.buckets ++ [B0, B1] from rfl]
    rw [hdir2 p hp, if_pos hpm]
    by_cases h2 : (p / 2 ^ od) % 2 = 1
    · rw [if_pos h2, if_pos h2, getD_append_ge _ _ _ _ (by omega)]
      rw [← hlenb]
      simp
    · rw [if_neg h2, if_neg h2, getD_append_ge _ _ _ _ (by omega)]
      rw [← hlenb]
      simp
  have hBAt_un : ∀ p, p < t.dir.length → ¬(p % 2 ^ od = m) →
      t2.bucketAt p = t.bucketAt p ∧ t2.dir.getD p 0 = t.dir.getD p 0 := by
    intro p hp hpm
    have hd := hdir2 p hp
    rw [if_neg hpm] at hd
    refine ⟨?_, hd⟩
    unfold HashTable.bucketAt
    rw [show t2.buckets = t.buckets ++ [B0, B1] from rfl, hd]
    exact getD_append_lt _ _ _ _ (hids p hp)
  have hOld : ∀ q, q < t.dir.length → q % 2 ^ od = m →
      t.dir.getD q 0 = t.dir.getD index 0 := by
    intro q hq hqm
    exact (hmain index hindex).2 q hq hqm
  refine ⟨?_, ?_, ?_⟩
  · show t2.dir.length = 2 ^ t.globalDepth
    rw [hdlen, hlen]
  · intro i hi
    rw [hdlen] at hi
    rw [hblen, hdir2 i hi]
    split
    · split <;> omega
    · have := hids i hi
      omega
  · intro i hi
    rw [hdlen] at hi
    by_cases him : i % 2 ^ od = m
    · rw [hBAt_touched i hi him]
      have hdep : (if (i / 2 ^ od) % 2 = 1 then B1 else B0).depth = od + 1 := by
        split
        · exact hB1
        · exact hB0
      constructor
      · show _ ≤ t.globalDepth
        rw [hdep]
        omega
      · intro j hj hmod
        rw [hdlen] at hj
        rw [hdep] at hmod
        have hjm : j % 2 ^ od = m := by
          have h1 : j % 2 ^ (od + 1) % 2 ^ od = j % 2 ^ od :=
            mod_pow_mod_pow j od (od + 1) (Nat.le_succ od)
          have h2 : i % 2 ^ (od + 1) % 2 ^ od = i % 2 ^ od :=
            mod_pow_mod_pow i od (od + 1) (Nat.le_succ od)
          rw [← h1, hmod, h2]
          exact him
        have hbit : (j / 2 ^ od) % 2 = (i / 2 ^ od) % 2 := by
          rw [div_pow_mod_two j od, div_pow_mod_two i od, hmod]
        rw [hdir2 j hj, hdir2 i hi, if_pos hjm, if_pos him, hbit]
    · obtain ⟨hbk, hdir⟩ := hBAt_un i hi him
      rw [hbk]
      refine ⟨(hmain i hi).1, ?_⟩
      intro j hj hmod
      rw [hdlen] at hj
      have hdirjp : t.dir.getD j 0 = t.dir.getD i 0 := (hmain i hi).2 j hj hmod
      have hjm : ¬(j % 2 ^ od = m) := by
        intro hjm
        have hji : t.dir.getD j 0 = t.dir.getD index 0 := hOld j hj hjm
        have hpi : t.dir.getD i 0 = t.dir.getD index 0 := by
          rw [← hdirjp]
          exact hji
        have hbeq : t.bucketAt i = t.bucketAt index := by
          unfold HashTable.bucketAt
          rw [hpi]
        have hlp : (t.bucketAt i).depth = od := by rw [hbeq]
        rw [hlp] at hmod
        exact him (by rw [← hmod]; exact hjm)
      obtain ⟨hbkj, hdirj⟩ := hBAt_un j hj hjm
      rw [hdirj, hdir]
      exact hdirjp

theorem inv_bumpNumBuckets (t : HashTable) (h : t.inv) :
    t.bumpNumBuckets.inv := h

theorem inv_redistribute (hash : Nat → Nat) (items : List (Nat × Nat)) :
    ∀ t : HashTable, t.inv → (t.redistribute hash items).inv := by
  induction items with
  | nil => intro t h; exact h
  | cons kv rest ih =>
    intro t h
    have hstep : t.redistribute hash (kv :: rest) =
        HashTable.redistribute
          { t with
            buckets := (t.buckets.set (t.dir.getD (t.indexOf hash kv.1) 0)
              ((t.buckets.getD (t.dir.getD (t.indexOf hash kv.1) 0) default).insert
                kv.1 kv.2).2) } hash rest := rfl
    rw [hstep]
    apply ih
    exact inv_setBucket t _ _ h (fun _ => bucketInsert_depth _ _ _)

theorem inv_growSplit (t : HashTable) (hash : Nat → Nat) (key : Nat)
    (hinv : t.inv) :
    ((t.grow (t.bucketAt (t.indexOf hash key)).depth).splitWire t.bucketSize
      (t.bucketAt (t.indexOf hash key)).depth
      (t.indexOf hash key % 2 ^ (t.bucketAt (t.indexOf hash key)).depth)).inv := by
  set idx := t.indexOf hash key with hidxdef
  set od := (t.bucketAt idx).depth with hoddef
  have hidx : idx < t.dir.length := by
    rw [hinv.1, hidxdef]
    unfold HashTable.indexOf
    exact Nat.mod_lt _ (by positivity)
  by_cases hodg : od = t.globalDepth
  · have hgrow : t.grow od = t.doubleDir := by
      unfold HashTable.grow
      rw [if_pos (by simp [hodg])]
    have hinv2 := inv_doubleDir t hinv
    have hidxg : idx < 2 ^ t.globalDepth := by
      rw [← hinv.1]
      exact hidx
    have hidx2 : idx < t.doubleDir.dir.length := by
      unfold HashTable.doubleDir
      simp only [List.length_map, List.length_range]
      calc idx < 2 ^ t.globalDepth := hidxg
        _ < 2 ^ (t.globalDepth + 1) := by
            exact Nat.pow_lt_pow_right (by omega) (Nat.lt_succ_self _)
    have hBAt : t.doubleDir.bucketAt idx = t.bucketAt idx := by
      unfold HashTable.bucketAt
      rw [show t.doubleDir.buckets = t.buckets from rfl,
        doubleDir_dir_getD t idx (by
          calc idx < 2 ^ t.globalDepth := hidxg
            _ < 2 ^ (t.globalDepth + 1) :=
                Nat.pow_lt_pow_right (by omega) (Nat.lt_succ_self _)),
        Nat.mod_eq_of_lt hidxg]
    have hdepthEq : (t.doubleDir.bucketAt idx).depth = od := by
      rw [hBAt]
    have hlt : (t.doubleDir.bucketAt idx).depth < t.doubleDir.globalDepth := by
      rw [hdepthEq]
      show od < t.globalDepth + 1
      omega
    have h := inv_rewire t.doubleDir hinv2 idx hidx2 hlt
      { size := t.bucketSize, depth := (t.doubleDir.bucketAt idx).depth + 1,
        list := [] }
      { size := t.bucketSize, depth := (t.doubleDir.bucketAt idx).depth + 1,
        list := [] }
      rfl rfl
    rw [hdepthEq] at h
    rw [hgrow]
    exact h
  · have hgrow : t.grow od = t := by
      unfold HashTable.grow
      rw [if_neg (by simp [hodg])]
    have hdepthEq : (t.bucketAt idx).depth = od := hoddef.symm
    have hlt : (t.bucketAt idx).depth < t.globalDepth := by
      have hle := (hinv.2.2 idx hidx).1
      rw [hdepthEq]
      rw [hdepthEq] at hle
      omega
    have h := inv_rewire t hinv idx hidx hlt
      { size := t.bucketSize, depth := (t.bucketAt idx).depth + 1, list := [] }
      { size := t.bucketSize, depth := (t.bucketAt idx).depth + 1, list := [] }
      rfl rfl
    rw [hdepthEq] at h
    rw [hgrow]
    exact h

theorem inv_insertOnce (t : HashTable) (hash : Nat → Nat) (key value : Nat)
    (hinv : t.inv) : (t.insertOnce hash key value).2.inv := by
  unfold HashTable.insertOnce
  split
  · exact inv_setBucket t _ _ hinv (fun _ => bucketInsert_depth _ _ _)
  · show ((t.splitAll hash key).bumpNumBuckets).inv
    apply inv_bumpNumBuckets
    unfold HashTable.splitAll
    exact inv_redistribute hash _ _ (inv_growSplit t hash key hinv)

theorem inv_insertFuel (hash : Nat → Nat) (key value : Nat) :
    ∀ (fuel : Nat) (t : HashTable), t.inv →
      (t.insertFuel hash key value fuel).inv := by
  intro fuel
  induction fuel with
  | zero => intro t h; exact h
  | succ n ih =>
    intro t h
    unfold HashTable.insertFuel
    split
    · exact inv_insertOnce t hash key value h
    · exact ih _ (inv_insertOnce t hash key value h)

theorem inv_removeKey (t : HashTable) (hash : Nat → Nat) (key : Nat)
    (hinv : t.inv) : (t.removeKey hash key).2.inv := by
  unfold HashTable.removeKey
  exact inv_setBucket t _ _ hinv (fun _ => bucketRemove_depth _ _)

theorem inv_applyOp (hash : Nat → Nat) (fuel : Nat) (t : HashTable)
    (op : Op) (hinv : t.inv) : (applyOp hash fuel t op).inv := by
  cases op with
  | insertOp k v => exact inv_insertFuel hash k v fuel t hinv
  | removeOp k => exact inv_removeKey t hash k hinv
  | findOp k => exact hinv

/-- Claim C7: after every finite sequence of `Insert`, `Remove` and `Find`
operations starting from a fresh table (any hash function, any bucket size,
any fuel bound on the insert retry loop), the directory has length
`2^global_depth`, every slot references a bucket whose local depth `l` is at
most the global depth, and any two slots agreeing on their low `l` bits
(the bucket stamp `i % 2^l`, i.e. `i & ((1 << l) - 1)`) reference the same
bucket. -/
theorem hash_table_directory_invariant (hash : Nat → Nat)
    (fuel bucketSize : Nat) (ops : List Op) :
    (runOps hash fuel (mkTable bucketSize) ops).inv := by
  unfold runOps
  have h : ∀ (l : List Op) (t : HashTable), t.inv →
      (l.foldl (applyOp hash fuel) t).inv := by
    intro l
    induction l with
    | nil => intro t h; exact h
    | cons op rest ih =>
      intro t h
      simp only [List.foldl_cons]
      exact ih _ (inv_applyOp hash fuel t op h)
  exact h ops _ (inv_mkTable bucketSize)

end EHT

/-! ## B+ tree index (src/storage/index/b_plus_tree.cpp,
b_plus_tree_leaf_page.cpp, b_plus_tree_internal_page.cpp,
index_iterator.cpp)

Keys are `GenericKey` compared by an integer comparator (modelled by `Int`
with the three-valued comparison), values are RIDs (modelled by `Nat`).
Pages are an association list from page id to node; the buffer pool's
pin/latch management does not change the tree state and is not modelled.
-/

namespace BPT

/-- The three-valued `GenericComparator`: -1, 0 or 1. -/
def compareKeys (a b : Int) : Int :=
  if a < b then -1 else if b < a then 1 else 0

/-- A B+ tree page.  `leafN` carries `next_page_id_` and the live prefix of
its entry array plus `key0`, which mirrors the raw `array_[0]` slot: the
C++ `KeyAt(0)` asserts only against `GetMaxSize()`, so after a `Delete`
empties a leaf the old first key is still readable there (and
`CoalesceOrRedistribute` reads it); `key0` equals the first live key
whenever the leaf is nonempty.  `internalN` entries are (key, child page
id), the key of slot 0 being the sentinel. -/
inductive BNode where
  | leafN (maxSize : Nat) (parent : Option Nat) (next : Option Nat)
      (entries : List (Int × Nat)) (key0 : Int)
  | internalN (maxSize : Nat) (parent : Option Nat)
      (entries : List (Int × Nat))
deriving DecidableEq, Repr, Inhabited

/-- `BPlusTreePage::IsLeafPage`. -/
def BNode.isLeaf : BNode → Bool
  | .leafN .. => true
  | .internalN .. => false

/-- `BPlusTreePage::GetSize`. -/
def BNode.size : BNode → Nat
  | .leafN _ _ _ entries _ => entries.length
  | .internalN _ _ entries => entries.length

/-- `BPlusTreePage::GetMaxSize`. -/
def BNode.maxSize : BNode → Nat
  | .leafN m .. => m
  | .internalN m _ _ => m

/-- Modelled from the spec: `BPlusTreePage::GetMinSize` lives in
b_plus_tree_page.cpp, which is not among the available sources.  Spec §3
words it as `⌈max/2⌉`, but the code's arithmetic is consistent only with
the conventional `max_size_ / 2`: `Split` leaves `⌊max/2⌋` entries in the
left leaf (which must still satisfy the minimum), and `Coalesce` produces
`2·min − 1` entries (which must stay below the leaf maximum).  The floor
convention used by the reference implementation is therefore used here. -/
def BNode.minSize (n : BNode) : Nat :=
  n.maxSize / 2

/-- `BPlusTreePage::GetParentPageId` (`none` = INVALID_PAGE_ID). -/
def BNode.parent : BNode → Option Nat
  | .leafN _ p .. => p
  | .internalN _ p _ => p

/-- The (key, value) prefix of the node's array. -/
def BNode.entries : BNode → List (Int × Nat)
  | .leafN _ _ _ e _ => e
  | .internalN _ _ e => e

/-- `SetParentPageId`. -/
def BNode.setParent (p : Option Nat) : BNode → BNode
  | .leafN m _ nxt e k0 => .leafN m p nxt e k0
  | .internalN m _ e => .internalN m p e

/-- `KeyAt(0)`: the raw `array_[0]` key — the stale slot for an emptied
leaf, the live first key otherwise. -/
def BNode.keyAt0 : BNode → Int
  | .leafN _ _ _ entries k0 => ((entries.head?).map Prod.fst).getD k0
  | .internalN _ _ entries => ((entries.head?).map Prod.fst).getD 0

/-- Tree state: the header's root page id plus the page store.  The disk
manager's page allocator is the monotonic `nextPageId`. -/
structure BPTree where
  leafMaxSize : Nat
  internalMaxSize : Nat
  rootPageId : Option Nat
  pages : List (Nat × BNode)
  nextPageId : Nat
deriving DecidableEq, Repr

/-- `BufferPoolManager::FetchPage` + cast: all ids the tree follows are
allocated, so the default is never consulted on well-formed trees. -/
def BPTree.fetch (t : BPTree) (pid : Nat) : BNode :=
  ((t.pages.find? (fun e => e.1 == pid)).map Prod.snd).getD default

/-- Write back the (pinned, dirtied) page. -/
def BPTree.store (t : BPTree) (pid : Nat) (n : BNode) : BPTree :=
  { t with pages := t.pages.map (fun e => if e.1 == pid then (pid, n) else e) }

/-- `BufferPoolManager::NewPage`: allocate a fresh page id for the node. -/
def BPTree.alloc (t : BPTree) (n : BNode) : Nat × BPTree :=
  (t.nextPageId,
   { t with pages := t.pages ++ [(t.nextPageId, n)],
            nextPageId := t.nextPageId + 1 })

/-- `BufferPoolManager::DeletePage` for the deleted-page set. -/
def BPTree.dealloc (t : BPTree) (pid : Nat) : BPTree :=
  { t with pages := t.pages.filter (fun e => !(e.1 == pid)) }

/-- `BPlusTree` constructor (b_plus_tree.cpp lines 235-246): empty root. -/
def mkBPTree (leafMaxSize internalMaxSize : Nat) : BPTree :=
  { leafMaxSize := leafMaxSize, internalMaxSize := internalMaxSize,
    rootPageId := none, pages := [], nextPageId := 0 }

/-- The shared binary-search loop of `GetPosOnInternalPage` and
`GetPosOnLeafPage` (b_plus_tree.cpp lines 255-280): find the least `l` in
`[l0, r]` such that every key at index `≥ l` exceeds the probe. -/
def searchUpper (keys : List Int) (key : Int) : Nat → Nat → Nat → Nat
  | 0, l, _ => l
  | fuel + 1, l, r =>
    if l < r then
      let mid := (l + r) / 2
      if compareKeys (keys.getD mid 0) key ≠ 1 then
        searchUpper keys key fuel (mid + 1) r
      else searchUpper keys key fuel l mid
    else l

/-- `GetPosOnInternalPage` (lines 255-266): binary search over slots
`1 .. size-1`, returning `l - 1 ≥ 0`.  The fuel `r - l` covers the loop:
each iteration shrinks the interval by at least one. -/
def getPosOnInternalPage (entries : List (Int × Nat)) (key : Int) : Nat :=
  searchUpper (entries.map Prod.fst) key entries.length 1 entries.length - 1

/-- `GetPosOnLeafPage` (lines 268-280): binary search over all slots,
returning `l - 1`, i.e. `-1` when the key precedes every entry. -/
def getPosOnLeafPage (entries : List (Int × Nat)) (key : Int) : Int :=
  (searchUpper (entries.map Prod.fst) key entries.length 0
    entries.length : Int) - 1

/-- The descent of `FindLeaf` (lines 283-322; latch management does not
change the tree state): at each internal node follow the
`GetPosOnInternalPage` child.  Fuel bounds the depth. -/
def findLeafGo (t : BPTree) (key : Int) : Nat → Nat → Nat
  | 0, pid => pid
  | fuel + 1, pid =>
    match t.fetch pid with
    | .leafN .. => pid
    | .internalN _ _ entries =>
      findLeafGo t key fuel
        (entries.getD (getPosOnInternalPage entries key) (0, 0)).2

/-- Insert `(key, value)` at `index`, shifting the tail
(`B_PLUS_TREE_LEAF_PAGE_TYPE::Insert` / internal `Insert`). -/
def insEntry (index : Nat) (kv : Int × Nat) (entries : List (Int × Nat)) :
    List (Int × Nat) :=
  entries.take index ++ [kv] ++ entries.drop index

/-- Delete the entry at `index` (`Delete`). -/
def delEntry (index : Nat) (entries : List (Int × Nat)) : List (Int × Nat) :=
  entries.take index ++ entries.drop (index + 1)

/-- Leaf `key0` after its entry list becomes `entries2` (the raw
`array_[0]`: unchanged when the list empties, the new head otherwise). -/
def newKey0 (entries2 : List (Int × Nat)) (k0 : Int) : Int :=
  ((entries2.head?).map Prod.fst).getD k0

/-- Reparent every child listed (the loops at b_plus_tree.cpp lines 410-414
and the internal `Merge`/`Shift` helpers): set `parent_page_id_`. -/
def BPTree.reparent (t : BPTree) (children : List Nat) (newParent : Nat) :
    BPTree :=
  children.foldl
    (fun t2 c => t2.store c ((t2.fetch c).setParent (some newParent))) t

/-- `BPlusTree::InsertIntoParent` (b_plus_tree.cpp lines 362-418), with fuel
bounding the recursion along the ancestor chain.  `nodePid` is the page
whose sibling `newPid` was created with separator `key`. -/
def BPTree.insertIntoParent (t : BPTree) : Nat → Nat → Int → Nat → BPTree
  | 0, _, _, _ => t
  | fuel + 1, nodePid, key, newPid =>
    let node := t.fetch nodePid
    match node.parent with
    | none =>
      let rootEntries := [(node.keyAt0, nodePid), (key, newPid)]
      let res := t.alloc (.internalN t.internalMaxSize none rootEntries)
      let t1 := res.2
      let t2 := t1.store nodePid ((t1.fetch nodePid).setParent (some res.1))
      let t3 := t2.store newPid ((t2.fetch newPid).setParent (some res.1))
      { t3 with rootPageId := some res.1 }
    | some parentPid =>
      match t.fetch parentPid with
      | .leafN .. => t
      | .internalN imax pparent pentries =>
        if pentries.length < imax then
          t.store parentPid (.internalN imax pparent
            (insEntry (getPosOnInternalPage pentries key + 1) (key, newPid)
              pentries))
        else
          let lastKV := pentries.getLastD (0, 0)
          let endAndEntries :=
            if compareKeys key lastKV.1 = -1 then
              (lastKV,
               insEntry (getPosOnInternalPage pentries.dropLast key + 1)
                 (key, newPid) pentries.dropLast)
            else ((key, newPid), pentries)
          let sz := endAndEntries.2.length
          let leftE := endAndEntries.2.take (sz / 2 + 1)
          let rightE := endAndEntries.2.drop (sz / 2 + 1) ++ [endAndEntries.1]
          let res := t.alloc (.internalN imax pparent rightE)
          let t1 := res.2
          let t2 := t1.store parentPid (.internalN imax pparent leftE)
          let t3 := t2.reparent (rightE.map Prod.snd) res.1
          t3.insertIntoParent fuel parentPid
            ((rightE.headD (0, 0)).1) res.1

/-- `BPlusTree::Insert` (b_plus_tree.cpp lines 420-470): create the root
leaf when empty; otherwise descend, reject duplicates, insert in order and
split a just-full leaf, propagating to the parent. -/
def BPTree.insertB (t : BPTree) (key : Int) (value : Nat) : Bool × BPTree :=
  match t.rootPageId with
  | none =>
    let res := t.alloc (.leafN t.leafMaxSize none none [(key, value)] key)
    (true, { res.2 with rootPageId := some res.1 })
  | some rootPid =>
    let leafPid := findLeafGo t key (t.pages.length + 1) rootPid
    match t.fetch leafPid with
    | .internalN .. => (false, t)
    | .leafN lmax par nxt entries k0 =>
      let pos := getPosOnLeafPage entries key
      if pos ≠ -1 ∧
          compareKeys key (entries.getD pos.toNat (0, 0)).1 = 0 then
        (false, t)
      else
        let entries2 := insEntry (pos + 1).toNat (key, value) entries
        if entries2.length ≠ lmax then
          (true, t.store leafPid (.leafN lmax par nxt entries2
            (newKey0 entries2 k0)))
        else
          let leftE := entries2.take (entries2.length / 2)
          let rightE := entries2.drop (entries2.length / 2)
          let res := t.alloc (.leafN lmax par nxt rightE
            (newKey0 rightE 0))
          let t1 := res.2
          let t2 := t1.store leafPid (.leafN lmax par (some res.1) leftE
            (newKey0 leftE k0))
          (true, t2.insertIntoParent (t2.pages.length + 1) leafPid
            ((rightE.headD (0, 0)).1) res.1)

/-- Overwrite the key in slot `index` (`SetKeyAt`). -/
def setKeyEntry (index : Nat) (k : Int) (entries : List (Int × Nat)) :
    List (Int × Nat) :=
  entries.take index ++ [(k, (entries.getD index (0, 0)).2)] ++
    entries.drop (index + 1)

/-- `SetKeyAt` on an internal page of the store. -/
def BPTree.setParentKey (t : BPTree) (pid index : Nat) (k : Int) : BPTree :=
  match t.fetch pid with
  | .internalN m p e => t.store pid (.internalN m p (setKeyEntry index k e))
  | .leafN .. => t

/-- `Delete` on an internal page of the store (the `parent->Delete(pos)` of
`Coalesce`). -/
def BPTree.parentDelete (t : BPTree) (pid index : Nat) : BPTree :=
  match t.fetch pid with
  | .internalN m p e => t.store pid (.internalN m p (delEntry index e))
  | .leafN .. => t

/-- `BPlusTree::Redistribute` (b_plus_tree.cpp lines 563-587): move one
entry across the sibling boundary (`ShiftTo` when the donor is the left
sibling, `ShiftFrom` otherwise), reparenting the moved child for internal
nodes, then point the parent separator at the right node's new first key. -/
def BPTree.redistributeB (t : BPTree)
    (leftPid rightPid parentPid rightPos : Nat) (fromPrevious : Bool) :
    BPTree :=
  match t.fetch leftPid, t.fetch rightPid with
  | .leafN lm lp ln le lk0, .leafN rm rp rn re rk0 =>
    let pair :=
      if fromPrevious then
        (BNode.leafN lm lp ln le.dropLast (newKey0 le.dropLast lk0),
         BNode.leafN rm rp rn (le.getLastD (0, 0) :: re)
           (le.getLastD (0, 0)).1)
      else
        (BNode.leafN lm lp ln (le ++ [re.headD (0, 0)])
           (newKey0 (le ++ [re.headD (0, 0)]) lk0),
         BNode.leafN rm rp rn re.tail (newKey0 re.tail rk0))
    let t1 := (t.store leftPid pair.1).store rightPid pair.2
    t1.setParentKey parentPid rightPos pair.2.keyAt0
  | .internalN lm lp le, .internalN rm rp re =>
    if fromPrevious then
      let moved := le.getLastD (0, 0)
      let t0 := t.store moved.2 ((t.fetch moved.2).setParent (some rightPid))
      let t1 := (t0.store leftPid (.internalN lm lp le.dropLast)).store
        rightPid (.internalN rm rp (moved :: re))
      t1.setParentKey parentPid rightPos moved.1
    else
      let moved := re.headD (0, 0)
      let t0 := t.store moved.2 ((t.fetch moved.2).setParent (some leftPid))
      let t1 := (t0.store leftPid (.internalN lm lp (le ++ [moved]))).store
        rightPid (.internalN rm rp re.tail)
      t1.setParentKey parentPid rightPos ((re.tail.headD (0, 0)).1)
  | _, _ => t

/-- The `Merge` calls of `BPlusTree::Coalesce` (b_plus_tree.cpp lines
549-561): append the right node into the left; for leaves also relink
`next_page_id_`, for internal nodes reparent the migrated children and pull
the parent separator down onto the first migrated slot.  (When the right
internal node is empty — unreachable on well-formed trees — `Merge` copies
nothing and `IncreaseSize(0)` leaves the size unchanged, so the stale
`SetKeyAt` write beyond the live area is unobservable.) -/
def BPTree.mergeInto (t : BPTree) (leftPid rightPid : Nat) (mergeKey : Int) :
    BPTree :=
  match t.fetch leftPid, t.fetch rightPid with
  | .leafN lm lp _ le lk0, .leafN _ _ rn re _ =>
    t.store leftPid (.leafN lm lp rn (le ++ re) (newKey0 (le ++ re) lk0))
  | .internalN lm lp le, .internalN _ _ re =>
    let t1 := t.reparent (re.map Prod.snd) leftPid
    match re with
    | [] => t1
    | r0 :: rrest =>
      t1.store leftPid (.internalN lm lp (le ++ (mergeKey, r0.2) :: rrest))
  | _, _ => t

/-- `BPlusTree::CoalesceOrRedistribute` (b_plus_tree.cpp lines 472-547),
with fuel bounding the `Coalesce` recursion up the ancestor chain.  Returns
whether the caller must delete the node's page, the new tree, and the other
pages collected into the deleted-page set. -/
def BPTree.coalesceOrRedistribute (t : BPTree) :
    Nat → Nat → Bool × BPTree × List Nat
  | 0, _ => (false, t, [])
  | fuel + 1, pid =>
    let node := t.fetch pid
    match node.parent with
    | none =>
      if !node.isLeaf && node.size == 1 then
        let childPid := (node.entries.headD (0, 0)).2
        let t1 := t.store childPid ((t.fetch childPid).setParent none)
        (true, { t1 with rootPageId := some childPid }, [])
      else if node.isLeaf && node.size == 0 then
        (true, { t with rootPageId := none }, [])
      else (false, t, [])
    | some parentPid =>
      if node.minSize ≤ node.size then (false, t, [])
      else
        match t.fetch parentPid with
        | .leafN .. => (false, t, [])
        | .internalN _ _ pentries =>
          let pos := getPosOnInternalPage pentries node.keyAt0
          if 0 < pos then
            let neighborPid := (pentries.getD (pos - 1) (0, 0)).2
            if (t.fetch neighborPid).minSize < (t.fetch neighborPid).size then
              (false, t.redistributeB neighborPid pid parentPid pos true, [])
            else
              let t1 := t.mergeInto neighborPid pid
                (pentries.getD pos (0, 0)).1
              let t2 := t1.parentDelete parentPid pos
              let r := t2.coalesceOrRedistribute fuel parentPid
              (true, r.2.1, if r.1 then parentPid :: r.2.2 else r.2.2)
          else if pos ≠ pentries.length - 1 then
            let neighborPid := (pentries.getD (pos + 1) (0, 0)).2
            if (t.fetch neighborPid).minSize < (t.fetch neighborPid).size then
              (false, t.redistributeB pid neighborPid parentPid (pos + 1)
                false, [])
            else
              let t1 := t.mergeInto pid neighborPid
                (pentries.getD (pos + 1) (0, 0)).1
              let t2 := t1.parentDelete parentPid (pos + 1)
              let r := t2.coalesceOrRedistribute fuel parentPid
              (false, r.2.1,
               neighborPid :: (if r.1 then parentPid :: r.2.2 else r.2.2))
          else (false, t, [])

/-- `BPlusTree::Remove` (b_plus_tree.cpp lines 599-626): locate the leaf,
delete the matching entry if present, rebalance, and free the pages
collected in the deleted-page set. -/
def BPTree.removeB (t : BPTree) (key : Int) : BPTree :=
  match t.rootPageId with
  | none => t
  | some rootPid =>
    let leafPid := findLeafGo t key (t.pages.length + 1) rootPid
    match t.fetch leafPid with
    | .internalN .. => t
    | .leafN lmax par nxt entries k0 =>
      let pos := getPosOnLeafPage entries key
      if pos = -1 ∨ compareKeys key (entries.getD pos.toNat (0, 0)).1 ≠ 0 then
        t
      else
        let entries2 := delEntry pos.toNat entries
        let t1 := t.store leafPid (.leafN lmax par nxt entries2
          (newKey0 entries2 k0))
        let r := t1.coalesceOrRedistribute (t1.pages.length + 1) leafPid
        (if r.1 then leafPid :: r.2.2 else r.2.2).foldl BPTree.dealloc r.2.1

/-- `BPlusTree::GetValue` (b_plus_tree.cpp lines 332-346). -/
def BPTree.getValueB (t : BPTree) (key : Int) : Option Nat :=
  match t.rootPageId with
  | none => none
  | some rootPid =>
    let leafPid := findLeafGo t key (t.pages.length + 1) rootPid
    match t.fetch leafPid with
    | .internalN .. => none
    | .leafN _ _ _ entries _ =>
      let pos := getPosOnLeafPage entries key
      if pos ≠ -1 ∧ compareKeys key (entries.getD pos.toNat (0, 0)).1 = 0 then
        some (entries.getD pos.toNat (0, 0)).2
      else none

/-- The leftmost descent of `BPlusTree::Begin()` (b_plus_tree.cpp lines
636-654): follow `ValueAt(0)`. -/
def leftmostLeafGo (t : BPTree) : Nat → Nat → Nat
  | 0, pid => pid
  | fuel + 1, pid =>
    match t.fetch pid with
    | .leafN .. => pid
    | .internalN _ _ entries =>
      leftmostLeafGo t fuel (entries.headD (0, 0)).2

/-- The visit sequence of `IndexIterator::operator++` (index_iterator.cpp
lines 173-190): all entries of the current leaf, then follow
`next_page_id_` until INVALID. -/
def chainEntries (t : BPTree) : Nat → Option Nat → List (Int × Nat)
  | 0, _ => []
  | _ + 1, none => []
  | fuel + 1, some pid =>
    match t.fetch pid with
    | .leafN _ _ nxt entries _ => entries ++ chainEntries t fuel nxt
    | .internalN .. => []

/-- The full key/value sequence visited from `Begin()` to `IsEnd()`. -/
def BPTree.iterateAll (t : BPTree) : List (Int × Nat) :=
  match t.rootPageId with
  | none => []
  | some rootPid =>
    chainEntries t (t.pages.length + 1)
      (some (leftmostLeafGo t (t.pages.length + 1) rootPid))

/-- Depths (root = 0) of every leaf reachable from `pid`. -/
def leafDepthsGo (t : BPTree) : Nat → Nat → Nat → List Nat
  | 0, _, d => [d]
  | fuel + 1, pid, d =>
    match t.fetch pid with
    | .leafN .. => [d]
    | .internalN _ _ entries =>
      entries.flatMap (fun e => leafDepthsGo t fuel e.2 (d + 1))

/-- All leaves lie at the same depth. -/
def BPTree.depthOk (t : BPTree) : Bool :=
  match t.rootPageId with
  | none => true
  | some r =>
    let ds := leafDepthsGo t (t.pages.length + 1) r 0
    ds.all (fun d => d == ds.headD 0)

/-- Size bounds of the claim: every non-root leaf holds between `min_size`
and `max_size - 1` entries, every non-root internal node between `min_size`
and `max_size`. -/
def BPTree.sizeOk (t : BPTree) : Bool :=
  t.pages.all fun e =>
    some e.1 == t.rootPageId ||
    (match e.2 with
     | .leafN m _ _ entries _ =>
       decide (m / 2 ≤ entries.length) && decide (entries.length ≤ m - 1)
     | .internalN m _ entries =>
       decide (m / 2 ≤ entries.length) && decide (entries.length ≤ m))

/-- Number of leaves visited along the `next_page_id_` chain. -/
def chainLeafCount (t : BPTree) : Nat → Option Nat → Nat
  | 0, _ => 0
  | _ + 1, none => 0
  | fuel + 1, some pid =>
    match t.fetch pid with
    | .leafN _ _ nxt _ _ => 1 + chainLeafCount t fuel nxt
    | .internalN .. => 0

/-- Non-decreasing key order. -/
def keysSorted : List Int → Bool
  | [] => true
  | [_] => true
  | a :: b :: rest => decide (a ≤ b) && keysSorted (b :: rest)

/-- The `next_page_id_` chain from the leftmost leaf visits every leaf page
of the store, in non-decreasing key order. -/
def BPTree.chainOk (t : BPTree) : Bool :=
  match t.rootPageId with
  | none => t.pages.isEmpty
  | some rootPid =>
    let start := leftmostLeafGo t (t.pages.length + 1) rootPid
    chainLeafCount t (t.pages.length + 1) (some start) ==
      t.pages.countP (fun e => e.2.isLeaf) &&
    keysSorted ((t.iterateAll).map Prod.fst)

/-- The structural invariant of claim C2. -/
def BPTree.structuralInv (t : BPTree) : Bool :=
  t.sizeOk && t.depthOk && t.chainOk

/-- A `leaf_max_size = 2`, `internal_max_size = 4` tree built by inserting
the keys 7, 6, 5, 4, 3, 2, 1 in that order.  (All standard `GetMinSize`
conventions agree on this configuration: 1 for leaves, 2 for internal
nodes, so the missing `b_plus_tree_page.cpp` does not affect the run.) -/
def c2InsTree : BPTree :=
  ([7, 6, 5, 4, 3, 2, 1] : List Int).foldl
    (fun t k => (t.insertB k (k.toNat + 1000)).2) (mkBPTree 2 4)

/-- The tree after `Remove(1)`: still satisfies the invariant. -/
def c2AfterRemove1 : BPTree := c2InsTree.removeB 1

/-- The tree after the further `Remove(2)`: `CoalesceOrRedistribute`
locates the underflowing internal page 2 in its parent with
`GetPosOnInternalPage(parent, node->KeyAt(0))`, but an internal page's
slot-0 key is its unused dummy slot (here the stale value 6), so `pos`
resolves to 2 instead of 0: page 2 is merged into the non-sibling page 10,
`parent->Delete(pos)` drops the root entry of the live subtree holding
keys 6 and 7, and page 2 is freed while the root still references it. -/
def c2AfterRemove2 : BPTree := c2AfterRemove1.removeB 2

/-- C2: the structural invariant is NOT preserved by every completed
`Remove` call.  Starting from the invariant-satisfying seven-key tree and
removing 1 and then 2 (both calls complete, and the wrongly chosen
"sibling" page 10 is not write-latched by the ongoing call, so no latch is
re-acquired), the resulting state violates the invariant: the root keeps a
child entry for page 2, which has been handed to `DeletePage`, so the
subtree holding keys 6 and 7 is orphaned and the leaf chain no longer
matches the tree. -/
theorem b_plus_tree_remove_breaks_structural_invariant :
    c2InsTree.structuralInv = true ∧
    c2AfterRemove1.structuralInv = true ∧
    c2AfterRemove2.structuralInv = false ∧
    c2AfterRemove2.rootPageId = some 7 ∧
    (c2AfterRemove2.fetch 7).entries.map Prod.snd = [2, 10] ∧
    (c2AfterRemove2.pages.lookup 2).isNone = true :=
  ⟨by rfl, by rfl, by rfl, by rfl, by rfl, by rfl⟩

end BPT

end BusTub
